import Mathlib

/-!
Verification of the capture-and-redact pipeline of `vercel-debugpack`.

The development shallowly embeds the browser-side redaction utilities
(`sanitizeUrl`, `truncateString`, `safeStringify`), the capture core
(`addLogEntry`, `initDebugCapture`, `generateSessionId`) and the CLI
redaction engine (`redactString` with its five `REDACTION_PATTERNS`).
JavaScript strings are modelled as `String` (a `List Char` wrapper),
JavaScript numbers used as sizes/indices as `Nat`, nullable values as
`Option`, and the mutable module/global state as explicit state records
threaded through the functions.
-/

namespace Debugpack

/-! ## Redaction utilities (src/browser/redaction.ts) -/

/-- The fixed truncation marker appended by `truncateString`. -/
def truncSuffix : String := "...[truncated]"

/-- Embedding of `truncateString(str, maxLength)`:
if the string is short enough it is returned unchanged, otherwise a prefix
plus the marker is returned; when `maxLength - marker.length <= 0` the code
returns the marker alone (`truncateAt <= 0` branch). -/
def truncateString (str : String) (maxLength : Nat) : String :=
  if str.data.length ≤ maxLength then str
  else if maxLength ≤ truncSuffix.data.length then truncSuffix
  else ⟨str.data.take (maxLength - truncSuffix.data.length) ++ truncSuffix.data⟩

/-- JavaScript `String.prototype.indexOf` for a single character:
index of the first occurrence, `none` when absent (`-1` in JS). -/
def indexOfChar (c : Char) : List Char → Option Nat
  | [] => none
  | d :: rest => if d = c then some 0 else (indexOfChar c rest).map (· + 1)

/-- Embedding of the `catch` branch of `sanitizeUrl`: locate the first `?`
and the first `#` (`indexOf`), and truncate at whichever comes first
(`endIndex` starts at `url.length` and is lowered by `Math.min`). -/
def stripQueryHash (url : String) : String :=
  let cs := url.data
  let qIdx := indexOfChar '?' cs
  let hIdx := indexOfChar '#' cs
  let e1 : Nat := match qIdx with
    | some i => min cs.length i
    | none => cs.length
  let e2 : Nat := match hIdx with
    | some i => min e1 i
    | none => e1
  ⟨cs.take e2⟩

/-- Embedding of `sanitizeUrl(url)`.  The WHATWG `new URL` parser of the host
platform is a parameter: `parseURL url = some (origin, pathname)` models a
successful parse (the `try` branch returns ``origin ++ pathname``), `none`
models the thrown parse error (the `catch` branch strips at `?`/`#`). -/
def sanitizeUrl (parseURL : String → Option (String × String)) (url : String) : String :=
  match parseURL url with
  | some (origin, pathname) => origin ++ pathname
  | none => stripQueryHash url

/-! ### Lemmas about `indexOfChar` and `stripQueryHash` -/

theorem indexOfChar_none {c : Char} :
    ∀ (l : List Char), indexOfChar c l = none → ∀ x ∈ l, x ≠ c := by
  intro l
  induction l with
  | nil => intro _ x hx; cases hx
  | cons d rest ih =>
    intro h x hx
    by_cases hd : d = c
    · simp [indexOfChar, hd] at h
    · simp only [indexOfChar, if_neg hd, Option.map_eq_none'] at h
      cases hx with
      | head => exact hd
      | tail _ hx => exact ih h x hx

theorem indexOfChar_eq_none {c : Char} {l : List Char} (h : ∀ x ∈ l, x ≠ c) :
    indexOfChar c l = none := by
  induction l with
  | nil => rfl
  | cons d rest ih =>
    have hd : d ≠ c := h d (List.mem_cons_self d rest)
    simp only [indexOfChar, if_neg hd, Option.map_eq_none']
    exact ih (fun x hx => h x (List.mem_cons_of_mem d hx))

theorem indexOfChar_take {c : Char} :
    ∀ (l : List Char) (i : Nat), indexOfChar c l = some i → ∀ x ∈ l.take i, x ≠ c := by
  intro l
  induction l with
  | nil => intro i _ x hx; simp at hx
  | cons d rest ih =>
    intro i h x hx
    by_cases hd : d = c
    · simp only [indexOfChar, if_pos hd, Option.some.injEq] at h
      subst h
      simp at hx
    · simp only [indexOfChar, if_neg hd] at h
      rcases Option.map_eq_some'.mp h with ⟨j, hj, hji⟩
      subst hji
      simp only [List.take_succ_cons] at hx
      cases hx with
      | head => exact hd
      | tail _ hx => exact ih j hj x hx

theorem stripQueryHash_no_marks (url : String) :
    '?' ∉ (stripQueryHash url).data ∧ '#' ∉ (stripQueryHash url).data := by
  unfold stripQueryHash
  set cs := url.data with hcs
  constructor
  · intro hmem
    simp only at hmem
    rcases hq : indexOfChar '?' cs with _ | i
    · rcases hh : indexOfChar '#' cs with _ | j
      all_goals
        simp only [hq, hh] at hmem
        exact indexOfChar_none _ hq _ (List.mem_of_mem_take hmem) rfl
    · -- the take bound is ≤ i, so the taken part avoids '?'
      have key : ∀ e, e ≤ i → '?' ∉ cs.take e := by
        intro e he hmem'
        have : ('?' : Char) ∈ cs.take i := by
          have : cs.take e = (cs.take i).take e := by
            rw [List.take_take, Nat.min_eq_left he]
          exact List.mem_of_mem_take (this ▸ hmem')
        exact indexOfChar_take _ _ hq _ this rfl
      rcases hh : indexOfChar '#' cs with _ | j
      · simp only [hq, hh] at hmem
        exact key _ (Nat.min_le_right _ _) hmem
      · simp only [hq, hh] at hmem
        exact key _ (le_trans (Nat.min_le_left _ _) (Nat.min_le_right _ _)) hmem
  · intro hmem
    simp only at hmem
    rcases hh : indexOfChar '#' cs with _ | j
    · rcases hq : indexOfChar '?' cs with _ | i
      all_goals
        simp only [hq, hh] at hmem
        exact indexOfChar_none _ hh _ (List.mem_of_mem_take hmem) rfl
    · have key : ∀ e, e ≤ j → '#' ∉ cs.take e := by
        intro e he hmem'
        have : ('#' : Char) ∈ cs.take j := by
          have : cs.take e = (cs.take j).take e := by
            rw [List.take_take, Nat.min_eq_left he]
          exact List.mem_of_mem_take (this ▸ hmem')
        exact indexOfChar_take _ _ hh _ this rfl
      rcases hq : indexOfChar '?' cs with _ | i
      all_goals
        simp only [hq, hh] at hmem
        exact key _ (Nat.min_le_right _ _) hmem

theorem stripQueryHash_id (url : String) (hq : '?' ∉ url.data) (hh : '#' ∉ url.data) :
    stripQueryHash url = url := by
  unfold stripQueryHash
  have h1 : indexOfChar '?' url.data = none :=
    indexOfChar_eq_none (fun x hx hxc => hq (hxc ▸ hx))
  have h2 : indexOfChar '#' url.data = none :=
    indexOfChar_eq_none (fun x hx hxc => hh (hxc ▸ hx))
  simp only [h1, h2, List.take_length]

/-! ### Claim C2 — truncation bound -/

/-- C2 counterexample: the claim "for every string `s` and every positive `n`,
`truncateString(s, n)` has length at most `n`" fails at `s = "abcdef"`,
`n = 5`: the `truncateAt <= 0` branch returns the 14-character marker
`"...[truncated]"`, whose length exceeds 5. -/
theorem truncateString_c2_cex :
    0 < 5 ∧ truncateString "abcdef" 5 = "...[truncated]" ∧
      ¬ (truncateString "abcdef" 5).length ≤ 5 := by
  refine ⟨?_, ?_, ?_⟩
  · decide
  · rfl
  · decide

/-- C2 (amended): for every string `s` and positive `n`, the result of
`truncateString s n` has length at most `max n 14` (14 being the marker's own
length), hence at most `n` whenever `n` is at least the marker length; and
whenever `s` has length at most `n`, the string is returned unchanged. -/
theorem truncateString_spec_c2 (s : String) (n : Nat) (hn : 0 < n) :
    (truncateString s n).length ≤ max n truncSuffix.length ∧
    (truncSuffix.length ≤ n → (truncateString s n).length ≤ n) ∧
    (s.length ≤ n → truncateString s n = s) := by
  have hts : truncSuffix.length = 14 := rfl
  unfold truncateString
  by_cases h1 : s.data.length ≤ n
  · simp only [if_pos h1]
    exact ⟨le_max_of_le_left h1, fun _ => h1, fun _ => trivial⟩
  · simp only [if_neg h1]
    by_cases h2 : n ≤ truncSuffix.data.length
    · simp only [if_pos h2]
      exact ⟨le_max_of_le_right (le_refl _), fun hn14 => hn14, fun hs => absurd hs h1⟩
    · simp only [if_neg h2]
      have hlen : (String.mk (s.data.take (n - truncSuffix.data.length) ++
          truncSuffix.data)).length ≤ n := by
        show (s.data.take (n - truncSuffix.data.length) ++ truncSuffix.data).length ≤ n
        rw [List.length_append, List.length_take]
        have h14 : truncSuffix.data.length = 14 := rfl
        rw [h14] at h2 ⊢
        omega
      exact ⟨le_max_of_le_left hlen, fun _ => hlen, fun hs => absurd hs h1⟩

/-- C2 witness: instantiation of the amended claim at `s = "hello"`, `n = 20`. -/
theorem truncateString_spec_c2_witness :
    (truncateString "hello" 20).length ≤ max 20 truncSuffix.length ∧
    (truncSuffix.length ≤ 20 → (truncateString "hello" 20).length ≤ 20) ∧
    ("hello".length ≤ 20 → truncateString "hello" 20 = "hello") :=
  truncateString_spec_c2 "hello" 20 (by decide)

/-! ### Claim C3 — URL sanitization -/

/-- C3: `sanitizeUrl` is a total function (it "never throws": every branch,
including the parse-failure fallback, produces a string).  Provided the host
URL parser returns an origin and pathname containing no `?` and no `#`
(guaranteed by the WHATWG URL standard, where `?` starts the query and `#`
the fragment), the output of `sanitizeUrl` contains no `?` and no `#`
characters at all — in particular nothing from, or following, the original
query or fragment.  For parseable URLs the output is exactly
`origin ++ pathname`, and an unparseable input without `?` or `#` is
returned unchanged. -/
theorem sanitizeUrl_spec_c3 (parseURL : String → Option (String × String)) (url : String)
    (hp : ∀ s o p, parseURL s = some (o, p) →
      '?' ∉ (o ++ p).data ∧ '#' ∉ (o ++ p).data) :
    ('?' ∉ (sanitizeUrl parseURL url).data ∧ '#' ∉ (sanitizeUrl parseURL url).data) ∧
    (∀ o p, parseURL url = some (o, p) → sanitizeUrl parseURL url = o ++ p) ∧
    (parseURL url = none → '?' ∉ url.data → '#' ∉ url.data →
      sanitizeUrl parseURL url = url) := by
  unfold sanitizeUrl
  rcases hparse : parseURL url with _ | ⟨o, p⟩
  · exact ⟨stripQueryHash_no_marks url,
      fun o p h => by simp [hparse] at h,
      fun _ hq hh => stripQueryHash_id url hq hh⟩
  · refine ⟨hp url o p hparse, fun o' p' h => ?_, fun h => by simp [hparse] at h⟩
    simp only [Option.some.injEq, Prod.mk.injEq] at h
    obtain ⟨rfl, rfl⟩ := h
    rfl

/-! ## Capture core data model (src/browser/types.ts) -/

/-- `LogEntry.level`: `'error' | 'warn' | 'event'`. -/
inductive LogLevel where
  | error
  | warn
  | event
deriving DecidableEq

/-- `LogEntry.type`: `'console' | 'window_error' | 'unhandled_rejection' | 'fetch'`. -/
inductive LogType where
  | console
  | windowError
  | unhandledRejection
  | fetch
deriving DecidableEq

/-- `LogEntryMeta` (all fields optional). -/
structure LogEntryMeta where
  method : Option String
  status : Option Nat
  durationMs : Option Nat
deriving DecidableEq

/-- `LogEntry` from types.ts. -/
structure LogEntry where
  ts : String
  level : LogLevel
  type : LogType
  message : String
  stack : Option String
  url : Option String
  debugSessionId : String
  meta : Option LogEntryMeta
deriving DecidableEq

/-- `Required<DebugConfig>` minus the `isEnabled` policy function (the policy
is evaluated at initialization and handled separately). -/
structure CaptureConfig where
  maxBufferSize : Nat
  maxStringLength : Nat
  captureWarnings : Bool
  captureInfo : Bool
  injectSessionHeader : Bool
  onlyFetchFailures : Bool
  serverUrl : String
deriving DecidableEq

/-- A value standing for an ambient primitive (a console method or `fetch`).
Wrapping a primitive with an interceptor yields a distinct new value holding
a reference to the wrapped one. -/
inductive Prim where
  | base (id : Nat)
  | wrap (inner : Prim)
deriving DecidableEq

/-- `DebugCaptureState` from types.ts. -/
structure DebugCaptureState where
  initialized : Bool
  enabled : Bool
  sessionId : String
  buffer : List LogEntry
  config : CaptureConfig
  originalConsoleError : Prim
  originalConsoleWarn : Prim
  originalConsoleInfo : Prim
  originalConsoleDebug : Prim
  originalFetch : Prim
deriving DecidableEq

/-- `Omit<LogEntry, 'ts' | 'debugSessionId'>`: the argument of `addLogEntry`. -/
structure PartialEntry where
  level : LogLevel
  type : LogType
  message : String
  stack : Option String
  url : Option String
  meta : Option LogEntryMeta
deriving DecidableEq

/-- The `fullEntry` built inside `addLogEntry`, spreading the partial entry
and adding the timestamp and the session id of the current state. -/
def mkFullEntry (e : PartialEntry) (now : String) (sid : String) : LogEntry :=
  { ts := now
    level := e.level
    type := e.type
    message := e.message
    stack := e.stack
    url := e.url
    debugSessionId := sid
    meta := e.meta }

/-- Embedding of `addLogEntry(entry)` from capture.ts: returns early when the
singleton state is absent or disabled; otherwise pushes the full entry and
drops the oldest entry (`Array.prototype.shift`) when the buffer exceeds
`maxBufferSize`.  The current wall-clock reading (`new Date().toISOString()`)
is the explicit argument `now`. -/
def addLogEntry (st : Option DebugCaptureState) (e : PartialEntry) (now : String) :
    Option DebugCaptureState :=
  match st with
  | none => none
  | some s =>
    if s.enabled = false then some s
    else
      let full := mkFullEntry e now s.sessionId
      let buf := s.buffer ++ [full]
      let buf2 := if s.config.maxBufferSize < buf.length then buf.tail else buf
      some { s with buffer := buf2 }

/-- Appending a sequence of entries, each with its own timestamp. -/
def addAll (st : Option DebugCaptureState) (es : List (PartialEntry × String)) :
    Option DebugCaptureState :=
  es.foldl (fun st pe => addLogEntry st pe.1 pe.2) st

/-! ### Claim C1 — bounded FIFO buffer -/

/-- The pure buffer update performed by one `addLogEntry` call on an enabled
state: push to the back, evict the front when over capacity. -/
def pushCap (cap : Nat) (buf : List α) (x : α) : List α :=
  let b := buf ++ [x]
  if cap < b.length then b.tail else b

theorem foldl_pushCap (cap : Nat) :
    ∀ (xs : List α) (buf : List α), buf.length ≤ cap →
      xs.foldl (pushCap cap) buf = (buf ++ xs).drop (buf.length + xs.length - cap) := by
  intro xs
  induction xs with
  | nil =>
    intro buf hb
    simp only [List.foldl_nil, List.length_nil, Nat.add_zero, List.append_nil]
    rw [Nat.sub_eq_zero_of_le hb, List.drop_zero]
  | cons x rest ih =>
    intro buf hb
    simp only [List.foldl_cons, List.length_cons]
    by_cases hfull : buf.length + 1 ≤ cap
    · have hstep : pushCap cap buf x = buf ++ [x] := by
        unfold pushCap
        simp only [List.length_append, List.length_singleton]
        rw [if_neg (by omega)]
      have harg : (buf ++ [x]).length ≤ cap := by
        simp only [List.length_append, List.length_singleton]
        omega
      rw [hstep, ih (buf ++ [x]) harg]
      have h1 : buf ++ [x] ++ rest = buf ++ x :: rest := by simp
      have h2 : (buf ++ [x]).length + rest.length - cap =
          buf.length + (rest.length + 1) - cap := by
        simp only [List.length_append, List.length_singleton]
        omega
      rw [h1, h2]
    · have hcap : buf.length = cap := by omega
      have hstep : pushCap cap buf x = (buf ++ [x]).tail := by
        unfold pushCap
        simp only [List.length_append, List.length_singleton]
        rw [if_pos (by omega)]
      have htlen : ((buf ++ [x]).tail).length = cap := by
        simp only [List.length_tail, List.length_append, List.length_singleton]
        omega
      have harg2 : (1 : Nat) ≤ (buf ++ [x]).length := by
        simp only [List.length_append, List.length_singleton]
        omega
      rw [hstep, ih ((buf ++ [x]).tail) (le_of_eq htlen), htlen]
      rw [← List.drop_one, ← List.drop_append_of_le_length harg2, List.drop_drop]
      have h1 : buf ++ [x] ++ rest = buf ++ x :: rest := by simp
      rw [h1]
      congr 1
      omega

/-- Folding `addLogEntry` over an enabled state only changes the buffer,
by folding `pushCap` over the full entries. -/
theorem addAll_enabled (es : List (PartialEntry × String)) :
    ∀ (s : DebugCaptureState), s.enabled = true →
      addAll (some s) es = some { s with
        buffer := (es.map (fun pe => mkFullEntry pe.1 pe.2 s.sessionId)).foldl
          (pushCap s.config.maxBufferSize) s.buffer } := by
  induction es with
  | nil => intro s _; rfl
  | cons pe rest ih =>
    intro s hen
    have hstep : addLogEntry (some s) pe.1 pe.2 =
        some { s with buffer := (pushCap s.config.maxBufferSize s.buffer
          (mkFullEntry pe.1 pe.2 s.sessionId)) } := by
      simp [addLogEntry, pushCap, hen]
    show addAll (addLogEntry (some s) pe.1 pe.2) rest = _
    rw [hstep, ih { s with buffer := (pushCap s.config.maxBufferSize s.buffer
      (mkFullEntry pe.1 pe.2 s.sessionId)) } hen]
    rfl

/-- C1: on an active capture session whose buffer respects the capacity bound
(in particular the freshly created empty buffer), appending `N` entries with
`N` greater than the configured maximum `C = maxBufferSize` leaves a buffer
of length exactly `C` holding exactly the `C` most recently appended entries,
in their original relative order (strict FIFO eviction). -/
theorem addLogEntry_fifo_c1 (s : DebugCaptureState) (es : List (PartialEntry × String))
    (hen : s.enabled = true) (hbuf : s.buffer.length ≤ s.config.maxBufferSize)
    (hN : s.config.maxBufferSize < es.length) :
    ∃ s', addAll (some s) es = some s' ∧
      s'.buffer.length = s.config.maxBufferSize ∧
      s'.buffer = (es.map (fun pe => mkFullEntry pe.1 pe.2 s.sessionId)).drop
        (es.length - s.config.maxBufferSize) := by
  set cap := s.config.maxBufferSize with hcap
  set full := es.map (fun pe => mkFullEntry pe.1 pe.2 s.sessionId) with hfull
  have hflen : full.length = es.length := List.length_map _ _
  refine ⟨_, addAll_enabled es s hen, ?_, ?_⟩
  · simp only
    rw [foldl_pushCap cap full s.buffer hbuf, List.length_drop]
    rw [List.length_append, hflen]
    omega
  · simp only
    rw [foldl_pushCap cap full s.buffer hbuf]
    have hsplit : s.buffer.length + full.length - cap =
        s.buffer.length + (full.length - cap) := by
      rw [hflen]; omega
    rw [hsplit, List.drop_append, hflen]

/-- A concrete capture configuration used by witnesses: capacity 2,
other fields at their source defaults. -/
def sampleConfig : CaptureConfig :=
  ⟨2, 5000, true, false, true, true, "http://localhost:3847"⟩

/-- A concrete enabled capture state with an empty buffer. -/
def sampleState : DebugCaptureState :=
  ⟨true, true, "sid", [], sampleConfig, .base 0, .base 1, .base 2, .base 3, .base 4⟩

/-- Three concrete entries to append. -/
def sampleEntries : List (PartialEntry × String) :=
  [(⟨.error, .console, "m1", none, none, none⟩, "t1"),
   (⟨.warn, .console, "m2", none, none, none⟩, "t2"),
   (⟨.event, .fetch, "m3", none, none, none⟩, "t3")]

/-- C1 witness: a concrete enabled session with capacity 2 receiving 3 appends. -/
theorem addLogEntry_fifo_c1_witness :
    ∃ s', addAll (some sampleState) sampleEntries = some s' ∧
      s'.buffer.length = sampleState.config.maxBufferSize ∧
      s'.buffer = (sampleEntries.map
        (fun pe => mkFullEntry pe.1 pe.2 sampleState.sessionId)).drop
        (sampleEntries.length - sampleState.config.maxBufferSize) :=
  addLogEntry_fifo_c1 sampleState sampleEntries rfl (by decide) (by decide)

/-! ## Initialization state machine (src/browser/capture.ts) -/

/-- The ambient browser environment touched by the capture core: the five
interceptable primitives, the global listener registrations, the
`sessionStorage` cell used for the session id, and the inputs of the
enablement policy.  `isPreview` abstracts the outcome of the
`isPreviewEnvironment()` heuristics (the spec explicitly treats the heuristic
list as a non-authoritative pluggable signal); `freshId` is the token that
`generateSessionId()` would produce if called (the generator itself is
modelled separately). -/
structure World where
  hasWindow : Bool
  consoleError : Prim
  consoleWarn : Prim
  consoleInfo : Prim
  consoleDebug : Prim
  fetchFn : Prim
  errorListeners : Nat
  rejectionListeners : Nat
  hasSessionStorage : Bool
  sessionStore : Option String
  isPreview : Bool
  keyboardEnabled : Bool
  freshId : String

/-- The module-level mutable globals of capture.ts that the claims touch:
the singleton `state` and the saved `customIsEnabled` policy. -/
structure Globals where
  state : Option DebugCaptureState
  customIsEnabled : Option (World → Bool)

/-- The caller-supplied `DebugConfig` (every field optional). -/
structure DebugConfigArg where
  isEnabled : Option (World → Bool)
  maxBufferSize : Option Nat
  maxStringLength : Option Nat
  captureWarnings : Option Bool
  captureInfo : Option Bool
  injectSessionHeader : Option Bool
  onlyFetchFailures : Option Bool
  serverUrl : Option String

/-- Embedding of `defaultIsEnabled()`: requires a window, a preview-like
environment, and the keyboard opt-in flag. -/
def defaultIsEnabled (w : World) : Bool :=
  if w.hasWindow = false then false
  else if w.isPreview = false then false
  else w.keyboardEnabled

/-- Embedding of `getOrCreateSessionId()`: reuse the persisted token when
`sessionStorage` holds one, otherwise generate and persist a fresh one;
without `sessionStorage`, generate without persisting. -/
def getOrCreateSessionIdW (w : World) : String × World :=
  if w.hasSessionStorage then
    match w.sessionStore with
    | some existing => (existing, w)
    | none => (w.freshId, { w with sessionStore := some w.freshId })
  else (w.freshId, w)

/-- Embedding of `wrapConsole()`: wraps `console.error` always,
`console.warn` when `captureWarnings`, `console.info`/`console.debug` when
`captureInfo`. -/
def wrapConsoleW (w : World) (cfg : CaptureConfig) : World :=
  let w1 := { w with consoleError := .wrap w.consoleError }
  let w2 := if cfg.captureWarnings then { w1 with consoleWarn := .wrap w1.consoleWarn } else w1
  if cfg.captureInfo then
    { w2 with consoleInfo := .wrap w2.consoleInfo, consoleDebug := .wrap w2.consoleDebug }
  else w2

/-- Embedding of `wrapFetch()`: wraps `window.fetch` when a window exists. -/
def wrapFetchW (w : World) : World :=
  if w.hasWindow then { w with fetchFn := .wrap w.fetchFn } else w

/-- Embedding of `setupErrorListeners()`: registers one `error` and one
`unhandledrejection` listener when a window exists. -/
def setupErrorListenersW (w : World) : World :=
  if w.hasWindow then
    { w with errorListeners := w.errorListeners + 1,
             rejectionListeners := w.rejectionListeners + 1 }
  else w

/-- The observable face of the `DebugCaptureAPI` returned by `createAPI()`:
`getSessionId()` yields `state?.sessionId || ''` and `isEnabled()` yields
`state?.enabled || false`. -/
structure APIView where
  sessionId : String
  enabled : Bool
deriving DecidableEq

/-- Embedding of `createAPI()` restricted to its observable identity. -/
def createAPI (st : Option DebugCaptureState) : APIView :=
  { sessionId := match st with
      | some s => s.sessionId
      | none => ""
    enabled := match st with
      | some s => s.enabled
      | none => false }

/-- Embedding of `initDebugCapture(config)`.  Returns the updated globals,
the updated world, and the returned handle (`none` models the `null`
return). -/
def initDebugCapture (cfg : DebugConfigArg) (g : Globals) (w : World) :
    Globals × World × Option APIView :=
  if (match g.state with
      | some st => st.initialized
      | none => false) then
    (g, w, some (createAPI g.state))
  else
    let g1 : Globals := { g with customIsEnabled :=
      match cfg.isEnabled with
      | some f => some f
      | none => g.customIsEnabled }
    let effIsEnabled : World → Bool :=
      match cfg.isEnabled with
      | some f => f
      | none => defaultIsEnabled
    let fullConfig : CaptureConfig :=
      { maxBufferSize := cfg.maxBufferSize.getD 1000
        maxStringLength := cfg.maxStringLength.getD 5000
        captureWarnings := cfg.captureWarnings.getD true
        captureInfo := cfg.captureInfo.getD false
        injectSessionHeader := cfg.injectSessionHeader.getD true
        onlyFetchFailures := cfg.onlyFetchFailures.getD true
        serverUrl := cfg.serverUrl.getD "http://localhost:3847" }
    let enabled := effIsEnabled w
    if enabled = false then (g1, w, none)
    else
      let sidw := getOrCreateSessionIdW w
      let st0 : DebugCaptureState :=
        { initialized := true
          enabled := true
          sessionId := sidw.1
          buffer := []
          config := fullConfig
          originalConsoleError := w.consoleError
          originalConsoleWarn := w.consoleWarn
          originalConsoleInfo := w.consoleInfo
          originalConsoleDebug := w.consoleDebug
          originalFetch := if w.hasWindow then w.fetchFn else .base 0 }
      let w1 := wrapConsoleW sidw.2 fullConfig
      let w2 := wrapFetchW w1
      let w3 := setupErrorListenersW w2
      (⟨some st0, g1.customIsEnabled⟩, w3, some (createAPI (some st0)))

/-! ### Claim C7 — idempotent re-initialization -/

/-- C7: once a capture session exists (`state?.initialized`), every further
`initDebugCapture` call is a no-op: the module globals and the ambient world
(console methods, `fetch`, listener registrations, storage) are returned
unchanged — so no primitive is re-wrapped — and the returned handle exposes
the existing session's identity. -/
theorem initDebugCapture_idempotent_c7 (cfg : DebugConfigArg) (g : Globals) (w : World)
    (st : DebugCaptureState) (hst : g.state = some st) (hinit : st.initialized = true) :
    initDebugCapture cfg g w = (g, w, some (createAPI g.state)) ∧
    (createAPI g.state).sessionId = st.sessionId := by
  have h1 : initDebugCapture cfg g w = (g, w, some (createAPI g.state)) := by
    unfold initDebugCapture
    rw [hst]
    simp [hinit]
  have h2 : (createAPI g.state).sessionId = st.sessionId := by
    rw [hst]
    rfl
  exact ⟨h1, h2⟩

/-- A caller configuration leaving every option at its default. -/
def sampleCfgNone : DebugConfigArg := ⟨none, none, none, none, none, none, none, none⟩

/-- A concrete browser world for witnesses (instrumented, session persisted). -/
def sampleWorld : World :=
  ⟨true, .base 0, .base 1, .base 2, .base 3, .base 4, 1, 1, true, some "sid",
   true, true, "fresh"⟩

/-- A concrete browser world before any initialization, without keyboard
opt-in. -/
def sampleWorldOff : World :=
  ⟨true, .base 0, .base 1, .base 2, .base 3, .base 4, 0, 0, true, none,
   true, false, "fresh"⟩

/-- C7 witness: re-initialization over an already-initialized session. -/
theorem initDebugCapture_idempotent_c7_witness :
    initDebugCapture sampleCfgNone ⟨some sampleState, none⟩ sampleWorld =
      (⟨some sampleState, none⟩, sampleWorld, some (createAPI (some sampleState))) ∧
    (createAPI (some sampleState)).sessionId = sampleState.sessionId :=
  initDebugCapture_idempotent_c7 sampleCfgNone ⟨some sampleState, none⟩
    sampleWorld sampleState rfl rfl

/-! ### Claim C9 — policy rejection leaves the world untouched -/

/-- C9: when the effective enablement policy (the caller-supplied predicate,
or `defaultIsEnabled` when none is supplied) evaluates to `false` on a
not-yet-initialized system, `initDebugCapture` returns `null`, creates no
session state (hence no buffer), and returns the ambient world entirely
unchanged: `console.error`, `console.warn`, `console.info`, `console.debug`
and `window.fetch` keep their previous values and no listener is added. -/
theorem initDebugCapture_disabled_c9 (cfg : DebugConfigArg) (g : Globals) (w : World)
    (hni : ∀ st, g.state = some st → st.initialized = false)
    (hpol : (match cfg.isEnabled with
             | some f => f
             | none => defaultIsEnabled) w = false) :
    ∃ g', initDebugCapture cfg g w = (g', w, none) ∧ g'.state = g.state := by
  unfold initDebugCapture
  have hcond : (match g.state with
      | some st => st.initialized
      | none => false) = false := by
    rcases hg : g.state with _ | st
    · rfl
    · exact hni st hg
  rw [hcond]
  simp only [Bool.false_eq_true, if_false]
  rw [hpol]
  simp only [if_pos]
  exact ⟨_, rfl, rfl⟩

/-- C9 witness: default policy, no keyboard opt-in, fresh system. -/
theorem initDebugCapture_disabled_c9_witness :
    ∃ g', initDebugCapture sampleCfgNone ⟨none, none⟩ sampleWorldOff =
      (g', sampleWorldOff, none) ∧
      g'.state = (⟨none, none⟩ : Globals).state :=
  initDebugCapture_disabled_c9 sampleCfgNone ⟨none, none⟩ sampleWorldOff
    (fun st h => by cases h) rfl

/-! ## Session identity (src/browser/capture.ts, generateSessionId) -/

/-- One lowercase hexadecimal digit, as produced by JavaScript
`Number.prototype.toString(16)`. -/
def hexDigitChar (n : Nat) : Char :=
  if n < 10 then Char.ofNat (48 + n) else Char.ofNat (87 + n)

/-- `b.toString(16).padStart(2, '0')` for a byte `b < 256`. -/
def byteToHex (b : Nat) : List Char :=
  [hexDigitChar (b / 16), hexDigitChar (b % 16)]

/-- The `crypto.getRandomValues` fallback branch of `generateSessionId`:
force the version nibble (`bytes[6] = (bytes[6] & 0x0f) | 0x40`) and the
variant bits (`bytes[8] = (bytes[8] & 0x3f) | 0x80`), hex-encode, and group
8-4-4-4-12 with hyphens. -/
def uuidFromBytes (bytes : List Nat) : String :=
  let b6 := bytes.getD 6 0
  let b8 := bytes.getD 8 0
  let bytes2 := (bytes.set 6 ((b6 &&& 15) ||| 64)).set 8 ((b8 &&& 63) ||| 128)
  let hex := (bytes2.map byteToHex).flatten
  ⟨hex.take 8 ++ '-' :: ((hex.drop 8).take 4 ++ '-' :: ((hex.drop 12).take 4 ++
    '-' :: ((hex.drop 16).take 4 ++ '-' :: hex.drop 20)))⟩

/-- The runtime environment probed by `generateSessionId`: whether
`crypto.randomUUID` exists (and what it would return), whether
`crypto.getRandomValues` exists (and the 16 bytes it would fill), and the
`Date.now().toString(36)` / `Math.random().toString(36).slice(2, 11)` texts
used by the last-resort fallback. -/
structure CryptoEnv where
  hasRandomUUID : Bool
  randomUUIDResult : String
  hasGetRandomValues : Bool
  randomBytes : List Nat
  nowBase36 : String
  mathRandomBase36 : String

/-- Embedding of `generateSessionId()`. -/
def generateSessionId (env : CryptoEnv) : String :=
  if env.hasRandomUUID then env.randomUUIDResult
  else if env.hasGetRandomValues then uuidFromBytes env.randomBytes
  else "debug-" ++ env.nowBase36 ++ "-" ++ env.mathRandomBase36

/-- A lowercase hexadecimal digit character. -/
def isHexChar (c : Char) : Bool :=
  (48 ≤ c.toNat && c.toNat ≤ 57) || (97 ≤ c.toNat && c.toNat ≤ 102)

/-- A 36-character version-4-random-UUID-shaped token:
`xxxxxxxx-xxxx-4xxx-Nxxx-xxxxxxxxxxxx` with lowercase hex digits and
`N` in `8, 9, a, b`. -/
def isUuidV4Shaped (s : String) : Bool :=
  match s.data with
  | a0 :: a1 :: a2 :: a3 :: a4 :: a5 :: a6 :: a7 :: d1 :: b0 :: b1 :: b2 :: b3 :: d2 ::
    c0 :: c1 :: c2 :: c3 :: d3 :: e0 :: e1 :: e2 :: e3 :: d4 ::
    f0 :: f1 :: f2 :: f3 :: f4 :: f5 :: f6 :: f7 :: f8 :: f9 :: f10 :: f11 :: [] =>
    (d1 == '-') && ((d2 == '-') && ((d3 == '-') && ((d4 == '-') &&
    ((c0 == '4') &&
    ((e0 == '8' || e0 == '9' || e0 == 'a' || e0 == 'b') &&
    [a0, a1, a2, a3, a4, a5, a6, a7, b0, b1, b2, b3, c1, c2, c3,
     e1, e2, e3, f0, f1, f2, f3, f4, f5, f6, f7, f8, f9, f10, f11].all
      isHexChar)))))
  | _ => false

theorem isHexChar_hexDigitChar (n : Nat) (h : n < 16) :
    isHexChar (hexDigitChar n) = true := by
  interval_cases n <;> decide

theorem hexOfByteHi (b : Nat) (h : b < 256) :
    isHexChar (hexDigitChar (b / 16)) = true :=
  isHexChar_hexDigitChar _ (by omega)

theorem hexOfByteLo (b : Nat) : isHexChar (hexDigitChar (b % 16)) = true :=
  isHexChar_hexDigitChar _ (Nat.mod_lt _ (by norm_num))

theorem version_char (b6 : Nat) :
    (hexDigitChar (((b6 &&& 15) ||| 64) / 16) == '4') = true := by
  have h : b6 &&& 15 ≤ 15 := Nat.and_le_right
  set m := b6 &&& 15 with hm
  clear_value m
  interval_cases m <;> decide

theorem variant_char (b8 : Nat) :
    (hexDigitChar (((b8 &&& 63) ||| 128) / 16) == '8' ||
     hexDigitChar (((b8 &&& 63) ||| 128) / 16) == '9' ||
     hexDigitChar (((b8 &&& 63) ||| 128) / 16) == 'a' ||
     hexDigitChar (((b8 &&& 63) ||| 128) / 16) == 'b') = true := by
  have h : b8 &&& 63 ≤ 63 := Nat.and_le_right
  set m := b8 &&& 63 with hm
  clear_value m
  interval_cases m <;> decide

/-- The `getRandomValues` branch always builds a v4-shaped 36-character
token, for any 16 input bytes. -/
theorem uuidFromBytes_shape (bytes : List Nat) (hlen : bytes.length = 16)
    (hlt : ∀ x ∈ bytes, x < 256) : isUuidV4Shaped (uuidFromBytes bytes) = true := by
  rcases bytes with _ | ⟨b0, bytes⟩; · simp at hlen
  rcases bytes with _ | ⟨b1, bytes⟩; · simp at hlen
  rcases bytes with _ | ⟨b2, bytes⟩; · simp at hlen
  rcases bytes with _ | ⟨b3, bytes⟩; · simp at hlen
  rcases bytes with _ | ⟨b4, bytes⟩; · simp at hlen
  rcases bytes with _ | ⟨b5, bytes⟩; · simp at hlen
  rcases bytes with _ | ⟨b6, bytes⟩; · simp at hlen
  rcases bytes with _ | ⟨b7, bytes⟩; · simp at hlen
  rcases bytes with _ | ⟨b8, bytes⟩; · simp at hlen
  rcases bytes with _ | ⟨b9, bytes⟩; · simp at hlen
  rcases bytes with _ | ⟨b10, bytes⟩; · simp at hlen
  rcases bytes with _ | ⟨b11, bytes⟩; · simp at hlen
  rcases bytes with _ | ⟨b12, bytes⟩; · simp at hlen
  rcases bytes with _ | ⟨b13, bytes⟩; · simp at hlen
  rcases bytes with _ | ⟨b14, bytes⟩; · simp at hlen
  rcases bytes with _ | ⟨b15, bytes⟩; · simp at hlen
  have hnil : bytes = [] := by
    cases bytes with
    | nil => rfl
    | cons b t => simp at hlen
  subst hnil
  have h0 : b0 < 256 := hlt _ (by simp)
  have h1 : b1 < 256 := hlt _ (by simp)
  have h2 : b2 < 256 := hlt _ (by simp)
  have h3 : b3 < 256 := hlt _ (by simp)
  have h4 : b4 < 256 := hlt _ (by simp)
  have h5 : b5 < 256 := hlt _ (by simp)
  have h7 : b7 < 256 := hlt _ (by simp)
  have h9 : b9 < 256 := hlt _ (by simp)
  have h10 : b10 < 256 := hlt _ (by simp)
  have h11 : b11 < 256 := hlt _ (by simp)
  have h12 : b12 < 256 := hlt _ (by simp)
  have h13 : b13 < 256 := hlt _ (by simp)
  have h14 : b14 < 256 := hlt _ (by simp)
  have h15 : b15 < 256 := hlt _ (by simp)
  have hstring : uuidFromBytes
      [b0, b1, b2, b3, b4, b5, b6, b7, b8, b9, b10, b11, b12, b13, b14, b15] =
      String.mk
      [hexDigitChar (b0 / 16), hexDigitChar (b0 % 16),
       hexDigitChar (b1 / 16), hexDigitChar (b1 % 16),
       hexDigitChar (b2 / 16), hexDigitChar (b2 % 16),
       hexDigitChar (b3 / 16), hexDigitChar (b3 % 16), '-',
       hexDigitChar (b4 / 16), hexDigitChar (b4 % 16),
       hexDigitChar (b5 / 16), hexDigitChar (b5 % 16), '-',
       hexDigitChar (((b6 &&& 15) ||| 64) / 16), hexDigitChar (((b6 &&& 15) ||| 64) % 16),
       hexDigitChar (b7 / 16), hexDigitChar (b7 % 16), '-',
       hexDigitChar (((b8 &&& 63) ||| 128) / 16), hexDigitChar (((b8 &&& 63) ||| 128) % 16),
       hexDigitChar (b9 / 16), hexDigitChar (b9 % 16), '-',
       hexDigitChar (b10 / 16), hexDigitChar (b10 % 16),
       hexDigitChar (b11 / 16), hexDigitChar (b11 % 16),
       hexDigitChar (b12 / 16), hexDigitChar (b12 % 16),
       hexDigitChar (b13 / 16), hexDigitChar (b13 % 16),
       hexDigitChar (b14 / 16), hexDigitChar (b14 % 16),
       hexDigitChar (b15 / 16), hexDigitChar (b15 % 16)] := rfl
  rw [hstring]
  simp only [isUuidV4Shaped]
  simp only [List.all_cons, List.all_nil, Bool.and_eq_true, beq_iff_eq]
  refine ⟨trivial, trivial, trivial, trivial, ?_, ?_, ?_⟩
  · have := version_char b6
    simpa using this
  · have := variant_char b8
    simpa using this
  · simp [hexOfByteHi _ h0, hexOfByteHi _ h1, hexOfByteHi _ h2, hexOfByteHi _ h3,
      hexOfByteHi _ h4, hexOfByteHi _ h5, hexOfByteHi _ h7, hexOfByteHi _ h9,
      hexOfByteHi _ h10, hexOfByteHi _ h11, hexOfByteHi _ h12, hexOfByteHi _ h13,
      hexOfByteHi _ h14, hexOfByteHi _ h15, hexOfByteLo]

/-! ### Claim C8 — session id generation -/

/-- C8 counterexample: in an environment with no cryptographic random source
at all (`crypto.randomUUID` and `crypto.getRandomValues` both unavailable),
`generateSessionId` still does not fail, but it returns a
`debug-`-prefixed token that is not a 36-character v4-UUID-shaped token, so
the claim "for every environment ... returns a version-4-random-UUID-shaped
36-character token" is false. -/
theorem generateSessionId_c8_cex :
    generateSessionId ⟨false, "", false, [], "k2abc123", "x1y2z3w4d"⟩ =
      "debug-k2abc123-x1y2z3w4d" ∧
    isUuidV4Shaped (generateSessionId ⟨false, "", false, [], "k2abc123", "x1y2z3w4d"⟩)
      = false := by
  refine ⟨?_, ?_⟩
  · rfl
  · decide

/-- C8 (amended): `generateSessionId` never fails in any environment, and it
returns a version-4-random-UUID-shaped 36-character token whenever a
cryptographic random source is available: either `crypto.randomUUID` (which
by its platform contract returns a v4 UUID) or `crypto.getRandomValues`
(filling 16 bytes, each below 256).  In environments with neither source it
falls back to a non-empty, non-UUID-shaped `debug-`-prefixed token instead
of failing. -/
theorem generateSessionId_spec_c8 (env : CryptoEnv)
    (hu : env.hasRandomUUID = true → isUuidV4Shaped env.randomUUIDResult = true)
    (hb : env.hasGetRandomValues = true → env.randomBytes.length = 16)
    (hlt : ∀ x ∈ env.randomBytes, x < 256) :
    ((env.hasRandomUUID || env.hasGetRandomValues) = true →
      isUuidV4Shaped (generateSessionId env) = true) ∧
    ((env.hasRandomUUID || env.hasGetRandomValues) = false →
      generateSessionId env =
        "debug-" ++ env.nowBase36 ++ "-" ++ env.mathRandomBase36) := by
  constructor
  · intro hav
    unfold generateSessionId
    rcases hru : env.hasRandomUUID with _ | _
    · rcases hgv : env.hasGetRandomValues with _ | _
      · rw [hru, hgv] at hav; cases hav
      · simp only [hru, hgv, Bool.false_eq_true, if_false, if_true]
        exact uuidFromBytes_shape _ (hb hgv) hlt
    · simp only [hru, if_true]
      exact hu hru
  · intro hav
    unfold generateSessionId
    rcases hru : env.hasRandomUUID with _ | _
    · rcases hgv : env.hasGetRandomValues with _ | _
      · simp [hru, hgv]
      · rw [hru, hgv] at hav; cases hav
    · rw [hru] at hav; cases hav

/-- C8 witness: the amended claim at a concrete `getRandomValues`-only
environment with sixteen zero bytes. -/
theorem generateSessionId_spec_c8_witness :
    ((CryptoEnv.hasRandomUUID ⟨false, "", true,
        [0, 0, 0, 0, 0, 0, 0, 0, 0, 0, 0, 0, 0, 0, 0, 0], "", ""⟩ ||
      CryptoEnv.hasGetRandomValues ⟨false, "", true,
        [0, 0, 0, 0, 0, 0, 0, 0, 0, 0, 0, 0, 0, 0, 0, 0], "", ""⟩) = true →
      isUuidV4Shaped (generateSessionId ⟨false, "", true,
        [0, 0, 0, 0, 0, 0, 0, 0, 0, 0, 0, 0, 0, 0, 0, 0], "", ""⟩) = true) ∧
    ((CryptoEnv.hasRandomUUID ⟨false, "", true,
        [0, 0, 0, 0, 0, 0, 0, 0, 0, 0, 0, 0, 0, 0, 0, 0], "", ""⟩ ||
      CryptoEnv.hasGetRandomValues ⟨false, "", true,
        [0, 0, 0, 0, 0, 0, 0, 0, 0, 0, 0, 0, 0, 0, 0, 0], "", ""⟩) = false →
      generateSessionId ⟨false, "", true,
        [0, 0, 0, 0, 0, 0, 0, 0, 0, 0, 0, 0, 0, 0, 0, 0], "", ""⟩ =
        "debug-" ++ "" ++ "-" ++ "") :=
  generateSessionId_spec_c8 ⟨false, "", true,
    [0, 0, 0, 0, 0, 0, 0, 0, 0, 0, 0, 0, 0, 0, 0, 0], "", ""⟩
    (fun h => by cases h) (fun _ => rfl) (fun x hx => by
      simp only [List.mem_cons, List.not_mem_nil, or_false] at hx
      rcases hx with rfl | rfl | rfl | rfl | rfl | rfl | rfl | rfl | rfl | rfl |
        rfl | rfl | rfl | rfl | rfl | rfl <;> norm_num)

/-! ## CLI redaction engine (src/cli/index.ts)

The five `REDACTION_PATTERNS` regular expressions are embedded as dedicated
scanners over `List Char`, each reproducing the JavaScript leftmost/greedy
matching of its pattern.  In all five patterns every quantified class is
disjoint from the character that must follow it (whitespace vs. non-space,
token characters vs. `.`), so the greedy scan without backtracking computes
exactly the JavaScript match.  `\s` is modelled by its ASCII part (the
patterns and claims involve only ASCII input). -/

/-- JavaScript `\s` (ASCII part): space, tab, newline, carriage return,
vertical tab, form feed. -/
def isWsB (c : Char) : Bool :=
  c = ' ' || c = '\t' || c = '\n' || c = '\r' || c = '\x0b' || c = '\x0c'

/-- The class `[A-Za-z0-9]`. -/
def isAlnumB (c : Char) : Bool :=
  (65 ≤ c.toNat && c.toNat ≤ 90) || (97 ≤ c.toNat && c.toNat ≤ 122) ||
  (48 ≤ c.toNat && c.toNat ≤ 57)

/-- The class `[A-Za-z0-9\-_]`. -/
def isTokenChar (c : Char) : Bool :=
  isAlnumB c || c = '-' || c = '_'

/-- Strip a lowercase literal in a case-insensitive way (the `i` flag):
consumes `pat.length` characters whose ASCII lowercasing equals `pat`. -/
def stripICase : List Char → List Char → Option (List Char)
  | [], l => some l
  | _ :: _, [] => none
  | p :: ps, c :: cs => if c.toLower = p then stripICase ps cs else none

/-- Strip an exact literal (case-sensitive patterns). -/
def stripExact : List Char → List Char → Option (List Char)
  | [], l => some l
  | _ :: _, [] => none
  | p :: ps, c :: cs => if c = p then stripExact ps cs else none

/-- Greedy `X*`: drop the maximal run of characters satisfying `p`. -/
def dropRun (p : Char → Bool) : List Char → List Char
  | [] => []
  | c :: cs => if p c then dropRun p cs else c :: cs

/-- Greedy `X+`: at least one character satisfying `p`, then the maximal run. -/
def run1 (p : Char → Bool) (l : List Char) : Option (List Char) :=
  match l with
  | [] => none
  | c :: cs => if p c then some (dropRun p cs) else none

/-- Greedy counted run, for `{20,}`: length of the maximal run and the rest. -/
def runCount (p : Char → Bool) : List Char → Nat × List Char
  | [] => (0, [])
  | c :: cs =>
    if p c then
      let r := runCount p cs
      (r.1 + 1, r.2)
    else (0, c :: cs)

/-- Greedy `\.?`-style optional single character. -/
def optCharStrip (ch : Char) : List Char → List Char
  | [] => []
  | c :: cs => if c = ch then cs else c :: cs

/-- Mandatory single character (`\.`). -/
def charStrip (ch : Char) : List Char → Option (List Char)
  | [] => none
  | c :: cs => if c = ch then some cs else none

/-- `/authorization:\s*[^\s\n]+/gi` at the head of `l`: the literal
(case-insensitively), optional whitespace, then at least one non-whitespace
character (`[^\s\n]` coincides with non-`\s` since `\n ∈ \s`).
Returns the rest after the match. -/
def authMatch (l : List Char) : Option (List Char) :=
  match stripICase "authorization:".data l with
  | none => none
  | some r1 => run1 (fun c => !isWsB c) (dropRun isWsB r1)

/-- `/cookie:\s*[^\s\n]+/gi` at the head of `l`. -/
def cookieMatch (l : List Char) : Option (List Char) :=
  match stripICase "cookie:".data l with
  | none => none
  | some r1 => run1 (fun c => !isWsB c) (dropRun isWsB r1)

/-- `/Bearer\s+[A-Za-z0-9\-_]+\.?[A-Za-z0-9\-_]*\.?[A-Za-z0-9\-_]*/gi`
at the head of `l`. -/
def bearerMatch (l : List Char) : Option (List Char) :=
  match stripICase "bearer".data l with
  | none => none
  | some r1 =>
    match run1 isWsB r1 with
    | none => none
    | some r2 =>
      match run1 isTokenChar r2 with
      | none => none
      | some r3 =>
        let r4 := optCharStrip '.' r3
        let r5 := dropRun isTokenChar r4
        let r6 := optCharStrip '.' r5
        some (dropRun isTokenChar r6)

/-- `/eyJ[A-Za-z0-9\-_]+\.eyJ[A-Za-z0-9\-_]+\.[A-Za-z0-9\-_]+/g`
(case-sensitive) at the head of `l`. -/
def jwtMatch (l : List Char) : Option (List Char) :=
  match stripExact "eyJ".data l with
  | none => none
  | some r1 =>
    match run1 isTokenChar r1 with
    | none => none
    | some r2 =>
      match charStrip '.' r2 with
      | none => none
      | some r3 =>
        match stripExact "eyJ".data r3 with
        | none => none
        | some r4 =>
          match run1 isTokenChar r4 with
          | none => none
          | some r5 =>
            match charStrip '.' r5 with
            | none => none
            | some r6 => run1 isTokenChar r6

/-- `/sk[-_][A-Za-z0-9]{20,}/g` (case-sensitive) at the head of `l`. -/
def apiKeyMatch (l : List Char) : Option (List Char) :=
  match l with
  | c1 :: c2 :: c3 :: rest =>
    if c1 = 's' then
      if c2 = 'k' then
        if c3 = '-' || c3 = '_' then
          let r := runCount isAlnumB rest
          if 20 ≤ r.1 then some r.2 else none
        else none
      else none
    else none
  | _ => none

/-- The fixed replacement text. -/
def redactedChars : List Char := "[REDACTED]".data

/-- One global-regex pass (`String.prototype.match` + `replace` with the
`g` flag): scan left to right; at a match, count it, emit `[REDACTED]`, and
resume after the consumed span; otherwise keep the character and move one
position right.  All five patterns only match non-empty spans, so `fuel`
(initialized to the input length) never runs out. -/
def scanAux (m : List Char → Option (List Char)) : Nat → List Char → Nat × List Char
  | 0, l => (0, l)
  | _ + 1, [] => (0, [])
  | fuel + 1, c :: rest =>
    match m (c :: rest) with
    | some r =>
      let out := scanAux m fuel r
      (out.1 + 1, redactedChars ++ out.2)
    | none =>
      let out := scanAux m fuel rest
      (out.1, c :: out.2)

/-- Count of matches and globally replaced output of one rule on one text. -/
def countReplace (m : List Char → Option (List Char)) (l : List Char) : Nat × List Char :=
  scanAux m l.length l

/-- `RedactionReport.byRule`. -/
structure ByRule where
  authorizationHeader : Nat
  cookieHeader : Nat
  bearerToken : Nat
  jwtToken : Nat
  apiKey : Nat
deriving DecidableEq

/-- `RedactionReport`. -/
structure RedactionReport where
  totalRedactions : Nat
  byRule : ByRule
deriving DecidableEq

/-- A fresh all-zero report (the `redactionReport` initializer in `main`
and `createReport()` in the tests). -/
def freshReport : RedactionReport := ⟨0, ⟨0, 0, 0, 0, 0⟩⟩

/-- The rule names of `REDACTION_PATTERNS`. -/
inductive RuleName where
  | authorizationHeader
  | cookieHeader
  | bearerToken
  | jwtToken
  | apiKey
deriving DecidableEq

/-- The matcher of each named rule. -/
def ruleMatcher : RuleName → List Char → Option (List Char)
  | .authorizationHeader => authMatch
  | .cookieHeader => cookieMatch
  | .bearerToken => bearerMatch
  | .jwtToken => jwtMatch
  | .apiKey => apiKeyMatch

/-- The fixed order of `REDACTION_PATTERNS`. -/
def redactionRules : List RuleName :=
  [.authorizationHeader, .cookieHeader, .bearerToken, .jwtToken, .apiKey]

/-- `report.byRule[name] += k`. -/
def bumpRule (b : ByRule) : RuleName → Nat → ByRule
  | .authorizationHeader, k => { b with authorizationHeader := b.authorizationHeader + k }
  | .cookieHeader, k => { b with cookieHeader := b.cookieHeader + k }
  | .bearerToken, k => { b with bearerToken := b.bearerToken + k }
  | .jwtToken, k => { b with jwtToken := b.jwtToken + k }
  | .apiKey, k => { b with apiKey := b.apiKey + k }

/-- The `if (matches) { ... += matches.length }` bookkeeping of
`redactString`. -/
def recordMatches (rpt : RedactionReport) (n : RuleName) (k : Nat) : RedactionReport :=
  if 0 < k then ⟨rpt.totalRedactions + k, bumpRule rpt.byRule n k⟩ else rpt

/-- One iteration of the `for (const { name, pattern } of REDACTION_PATTERNS)`
loop: count matches on the current text, record them, replace. -/
def redactStep (acc : List Char × RedactionReport) (n : RuleName) : List Char × RedactionReport :=
  let r := countReplace (ruleMatcher n) acc.1
  (r.2, recordMatches acc.2 n r.1)

/-- Embedding of `redactString(input, report)`: fold the five rules in their
fixed order over the text, threading the mutated report (returned
explicitly). -/
def redactString (input : String) (report : RedactionReport) : String × RedactionReport :=
  let out := redactionRules.foldl redactStep (input.data, report)
  (⟨out.1⟩, out.2)

/-! ### Basic scanner lemmas -/

theorem scanAux_cons_none (m : List Char → Option (List Char)) (fuel : Nat)
    (c : Char) (rest : List Char) (h : m (c :: rest) = none) :
    scanAux m (fuel + 1) (c :: rest) =
      ((scanAux m fuel rest).1, c :: (scanAux m fuel rest).2) := by
  simp [scanAux, h]

theorem scanAux_cons_some (m : List Char → Option (List Char)) (fuel : Nat)
    (c : Char) (rest : List Char) (r : List Char) (h : m (c :: rest) = some r) :
    scanAux m (fuel + 1) (c :: rest) =
      ((scanAux m fuel r).1 + 1, redactedChars ++ (scanAux m fuel r).2) := by
  simp [scanAux, h]

/-- If the matcher fails on every list of `P`-characters, the scan leaves a
`P`-character text untouched and counts nothing. -/
theorem scanAux_id {P : Char → Prop} (m : List Char → Option (List Char))
    (hm : ∀ l : List Char, (∀ c ∈ l, P c) → m l = none) :
    ∀ (fuel : Nat) (l : List Char), (∀ c ∈ l, P c) → scanAux m fuel l = (0, l) := by
  intro fuel
  induction fuel with
  | zero => intro l _; rfl
  | succ f ih =>
    intro l hP
    cases l with
    | nil => rfl
    | cons c rest =>
      rw [scanAux_cons_none m f c rest (hm _ hP),
        ih rest (fun x hx => hP x (List.mem_cons_of_mem c hx))]

theorem countReplace_id {P : Char → Prop} (m : List Char → Option (List Char))
    (hm : ∀ l : List Char, (∀ c ∈ l, P c) → m l = none)
    (l : List Char) (hP : ∀ c ∈ l, P c) : countReplace m l = (0, l) :=
  scanAux_id m hm l.length l hP

/-! ### Combinator lemmas -/

theorem stripICase_suffix :
    ∀ (pat l r : List Char), stripICase pat l = some r → r <:+ l := by
  intro pat
  induction pat with
  | nil =>
    intro l r h
    simp only [stripICase, Option.some.injEq] at h
    exact h ▸ List.suffix_refl l
  | cons p ps ih =>
    intro l r h
    cases l with
    | nil => simp [stripICase] at h
    | cons c cs =>
      simp only [stripICase] at h
      split at h
      · exact (ih cs r h).trans (List.suffix_cons c cs)
      · cases h

theorem stripICase_mem_lower :
    ∀ (pat l r : List Char), stripICase pat l = some r →
      ∀ p ∈ pat, ∃ c ∈ l, c.toLower = p := by
  intro pat
  induction pat with
  | nil => intro l r _ p hp; cases hp
  | cons q ps ih =>
    intro l r h p hp
    cases l with
    | nil => simp [stripICase] at h
    | cons c cs =>
      simp only [stripICase] at h
      split at h
      · next heq =>
        rcases hp with _ | hp
        · exact ⟨c, List.mem_cons_self c cs, heq⟩
        · rcases ih cs r h p (by assumption) with ⟨d, hd, hdl⟩
          exact ⟨d, List.mem_cons_of_mem c hd, hdl⟩
      · cases h

theorem stripExact_eq :
    ∀ (pat l r : List Char), stripExact pat l = some r → l = pat ++ r := by
  intro pat
  induction pat with
  | nil =>
    intro l r h
    simp only [stripExact, Option.some.injEq] at h
    simp [h]
  | cons p ps ih =>
    intro l r h
    cases l with
    | nil => simp [stripExact] at h
    | cons c cs =>
      simp only [stripExact] at h
      split at h
      · next heq => simp [heq, ih cs r h]
      · cases h

theorem stripExact_suffix (pat l r : List Char) (h : stripExact pat l = some r) :
    r <:+ l :=
  ⟨pat, (stripExact_eq pat l r h).symm⟩

theorem dropRun_suffix (p : Char → Bool) : ∀ (l : List Char), dropRun p l <:+ l := by
  intro l
  induction l with
  | nil => exact List.suffix_refl []
  | cons c cs ih =>
    simp only [dropRun]
    split
    · exact ih.trans (List.suffix_cons c cs)
    · exact List.suffix_refl _

theorem run1_some {p : Char → Bool} {l r : List Char} (h : run1 p l = some r) :
    ∃ c cs, l = c :: cs ∧ p c = true ∧ r = dropRun p cs := by
  cases l with
  | nil => simp [run1] at h
  | cons c cs =>
    simp only [run1] at h
    split at h
    · next hp =>
      simp only [Option.some.injEq] at h
      exact ⟨c, cs, rfl, hp, h.symm⟩
    · cases h

theorem run1_suffix {p : Char → Bool} {l r : List Char} (h : run1 p l = some r) :
    r <:+ l := by
  rcases run1_some h with ⟨c, cs, rfl, _, rfl⟩
  exact (dropRun_suffix p cs).trans (List.suffix_cons c cs)

theorem charStrip_some {ch : Char} {l r : List Char} (h : charStrip ch l = some r) :
    l = ch :: r := by
  cases l with
  | nil => simp [charStrip] at h
  | cons c cs =>
    simp only [charStrip] at h
    split at h
    · next hc =>
      simp only [Option.some.injEq] at h
      rw [hc, h]
    · cases h

theorem runCount_all {p : Char → Bool} :
    ∀ (l : List Char), (∀ c ∈ l, p c = true) → runCount p l = (l.length, []) := by
  intro l
  induction l with
  | nil => intro _; rfl
  | cons c cs ih =>
    intro h
    simp only [runCount, h c (List.mem_cons_self c cs), if_true,
      ih (fun x hx => h x (List.mem_cons_of_mem c hx)), List.length_cons]

/-! ### Character facts -/

theorem toLower_eq_colon {c : Char} (h : Char.toLower c = ':') : c = ':' := by
  by_cases hc : 65 ≤ c.toNat ∧ c.toNat ≤ 90
  · exfalso
    have hofn := Char.ofNat_toNat c
    obtain ⟨hc1, hc2⟩ := hc
    set n := c.toNat with hn
    clear_value n
    interval_cases n <;> (rw [← hofn] at h; revert h; decide)
  · have hl : Char.toLower c = c := by
      unfold Char.toLower
      simp only []
      rw [if_neg (by exact_mod_cast hc)]
    rw [hl] at h
    exact h

theorem alnum_char_facts {c : Char} (h : isAlnumB c = true) :
    c ≠ ':' ∧ c ≠ '.' ∧ c ≠ '-' ∧ c ≠ '_' ∧ isWsB c = false := by
  refine ⟨?_, ?_, ?_, ?_, ?_⟩
  · intro hc; rw [hc] at h; revert h; decide
  · intro hc; rw [hc] at h; revert h; decide
  · intro hc; rw [hc] at h; revert h; decide
  · intro hc; rw [hc] at h; revert h; decide
  · cases hw : isWsB c
    · rfl
    · exfalso
      simp only [isWsB, Bool.or_eq_true, decide_eq_true_eq] at hw
      rcases hw with ((((hc | hc) | hc) | hc) | hc) | hc <;>
        (rw [hc] at h; revert h; decide)

/-! ### Per-rule no-match lemmas -/

theorem authMatch_none (l : List Char) (h : ∀ c ∈ l, c ≠ ':') : authMatch l = none := by
  unfold authMatch
  rcases hs : stripICase "authorization:".data l with _ | r1
  · rfl
  · exfalso
    rcases stripICase_mem_lower _ _ _ hs ':' (by decide) with ⟨c, hc, hlow⟩
    exact h c hc (toLower_eq_colon hlow)

theorem cookieMatch_none (l : List Char) (h : ∀ c ∈ l, c ≠ ':') : cookieMatch l = none := by
  unfold cookieMatch
  rcases hs : stripICase "cookie:".data l with _ | r1
  · rfl
  · exfalso
    rcases stripICase_mem_lower _ _ _ hs ':' (by decide) with ⟨c, hc, hlow⟩
    exact h c hc (toLower_eq_colon hlow)

theorem bearerMatch_none (l : List Char) (h : ∀ c ∈ l, isWsB c = false) :
    bearerMatch l = none := by
  unfold bearerMatch
  rcases hs : stripICase "bearer".data l with _ | r1
  · rfl
  · have hsuf := stripICase_suffix _ _ _ hs
    rcases hr : run1 isWsB r1 with _ | r2
    · simp [hr]
    · exfalso
      rcases run1_some hr with ⟨c, cs, heq, hpc, _⟩
      have hcl : c ∈ l := hsuf.subset (heq ▸ List.mem_cons_self c cs)
      rw [h c hcl] at hpc
      cases hpc

theorem jwtMatch_none (l : List Char) (h : ∀ c ∈ l, c ≠ '.') : jwtMatch l = none := by
  unfold jwtMatch
  rcases h1 : stripExact "eyJ".data l with _ | r1
  · rfl
  · rcases h2 : run1 isTokenChar r1 with _ | r2
    · simp [h2]
    · rcases h3 : charStrip '.' r2 with _ | r3
      · simp [h2, h3]
      · exfalso
        have s1 := stripExact_suffix _ _ _ h1
        have s2 := run1_suffix h2
        have hr2 : r2 = '.' :: r3 := charStrip_some h3
        have hdot : ('.' : Char) ∈ l :=
          s1.subset (s2.subset (hr2 ▸ List.mem_cons_self '.' r3))
        exact h _ hdot rfl

theorem apiKeyMatch_alnum_none (l : List Char) (h : ∀ c ∈ l, isAlnumB c = true) :
    apiKeyMatch l = none := by
  match l with
  | [] => rfl
  | [c1] => rfl
  | [c1, c2] => rfl
  | c1 :: c2 :: c3 :: rest =>
    have h3 := alnum_char_facts (h c3 (by simp))
    simp [apiKeyMatch, h3.2.2.1, h3.2.2.2.1]

/-! ### Claim C10 — report consistency -/

/-- The sum of the five per-rule counters. -/
def ruleSum (b : ByRule) : Nat :=
  b.authorizationHeader + b.cookieHeader + b.bearerToken + b.jwtToken + b.apiKey

theorem recordMatches_sum (rpt : RedactionReport) (n : RuleName) (k : Nat)
    (h : rpt.totalRedactions = ruleSum rpt.byRule) :
    (recordMatches rpt n k).totalRedactions = ruleSum ((recordMatches rpt n k).byRule) := by
  unfold recordMatches
  split
  · cases n <;> simp [bumpRule, ruleSum] at h ⊢ <;> omega
  · exact h

theorem foldl_redactStep_sum (rules : List RuleName) :
    ∀ (acc : List Char × RedactionReport),
      acc.2.totalRedactions = ruleSum acc.2.byRule →
      (rules.foldl redactStep acc).2.totalRedactions =
        ruleSum (rules.foldl redactStep acc).2.byRule := by
  induction rules with
  | nil => intro acc h; exact h
  | cons n rest ih =>
    intro acc h
    simp only [List.foldl_cons]
    exact ih _ (recordMatches_sum _ _ _ h)

/-- C10: for every input text and every report whose running total equals the
sum of the five per-rule counters (in particular a fresh all-zero report),
`redactString` preserves that equality: after the call the report's
`totalRedactions` is again the sum `authorizationHeader + cookieHeader +
bearerToken + jwtToken + apiKey`. -/
theorem redactString_report_sum_c10 (input : String) (rpt : RedactionReport)
    (h : rpt.totalRedactions = ruleSum rpt.byRule) :
    (redactString input rpt).2.totalRedactions =
      ruleSum ((redactString input rpt).2.byRule) := by
  unfold redactString
  exact foldl_redactStep_sum redactionRules (input.data, rpt) h

/-- C10 witness: a text hitting several rules, starting from a fresh report. -/
theorem redactString_report_sum_c10_witness :
    (redactString "Authorization: token123 Cookie: s=1" freshReport).2.totalRedactions =
      ruleSum ((redactString "Authorization: token123 Cookie: s=1" freshReport).2.byRule) :=
  redactString_report_sum_c10 "Authorization: token123 Cookie: s=1" freshReport rfl

/-! ### Claim C5 — `sk-` token redaction -/

/-- Whether `sub` occurs as a contiguous substring. -/
def prefixCheck : List Char → List Char → Bool
  | [], _ => true
  | _ :: _, [] => false
  | a :: as, b :: bs => a == b && prefixCheck as bs

/-- Substring occurrence test. -/
def containsSub (sub : List Char) : List Char → Bool
  | [] => prefixCheck sub []
  | c :: cs => prefixCheck sub (c :: cs) || containsSub sub cs

/-- C5 counterexample: the input `"Bearer sk-aaaaaaaaaaaaaaaaaaaa"` contains
`sk-` followed by 20 alphanumeric characters, yet `redactString` increments
the `bearerToken` counter (the earlier bearer rule consumes the token) and
leaves `apiKey` at 0 — refuting "for every input containing `sk-` followed
by 20 alphanumeric characters ... increments exactly the apiKey counter
by 1". -/
theorem redactString_c5_cex :
    containsSub "sk-aaaaaaaaaaaaaaaaaaaa".data
      "Bearer sk-aaaaaaaaaaaaaaaaaaaa".data = true ∧
    (redactString "Bearer sk-aaaaaaaaaaaaaaaaaaaa" freshReport).2.byRule.apiKey = 0 ∧
    (redactString "Bearer sk-aaaaaaaaaaaaaaaaaaaa" freshReport).2.byRule.bearerToken = 1 ∧
    (redactString "Bearer sk-aaaaaaaaaaaaaaaaaaaa" freshReport).1 = "[REDACTED]" := by
  refine ⟨?_, ?_, ?_, ?_⟩ <;> decide

/-- C5 (amended): restricted to inputs that consist exactly of `sk-` followed
by an alphanumeric run `t` (such inputs match no other rule): when `t` has
fewer than 20 characters the text is returned unchanged and no counter is
incremented; when `t` has 20 (or more) characters the token is replaced by
the placeholder and exactly the `apiKey` counter is incremented by 1. -/
theorem redactString_sk_c5 (t : List Char) (ht : ∀ c ∈ t, isAlnumB c = true) :
    (t.length < 20 →
      redactString ⟨'s' :: 'k' :: '-' :: t⟩ freshReport =
        (⟨'s' :: 'k' :: '-' :: t⟩, freshReport)) ∧
    (20 ≤ t.length →
      redactString ⟨'s' :: 'k' :: '-' :: t⟩ freshReport =
        ("[REDACTED]", ⟨1, ⟨0, 0, 0, 0, 1⟩⟩)) := by
  set l := 's' :: 'k' :: '-' :: t with hl
  have hPl : ∀ c ∈ l, isAlnumB c = true ∨ c = '-' := by
    intro c hc
    rw [hl] at hc
    simp only [List.mem_cons] at hc
    rcases hc with rfl | rfl | rfl | hc
    · left; decide
    · left; decide
    · right; rfl
    · left; exact ht c hc
  have hnone1 : ∀ l' : List Char, (∀ c ∈ l', isAlnumB c = true ∨ c = '-') →
      authMatch l' = none := by
    intro l' hl'
    apply authMatch_none
    intro c hc hcolon
    rcases hl' c hc with ha | ha
    · exact (alnum_char_facts ha).1 hcolon
    · rw [ha] at hcolon; cases hcolon
  have hnone2 : ∀ l' : List Char, (∀ c ∈ l', isAlnumB c = true ∨ c = '-') →
      cookieMatch l' = none := by
    intro l' hl'
    apply cookieMatch_none
    intro c hc hcolon
    rcases hl' c hc with ha | ha
    · exact (alnum_char_facts ha).1 hcolon
    · rw [ha] at hcolon; cases hcolon
  have hnone3 : ∀ l' : List Char, (∀ c ∈ l', isAlnumB c = true ∨ c = '-') →
      bearerMatch l' = none := by
    intro l' hl'
    apply bearerMatch_none
    intro c hc
    rcases hl' c hc with ha | ha
    · exact (alnum_char_facts ha).2.2.2.2
    · rw [ha]; rfl
  have hnone4 : ∀ l' : List Char, (∀ c ∈ l', isAlnumB c = true ∨ c = '-') →
      jwtMatch l' = none := by
    intro l' hl'
    apply jwtMatch_none
    intro c hc hdot
    rcases hl' c hc with ha | ha
    · exact (alnum_char_facts ha).2.1 hdot
    · rw [ha] at hdot; cases hdot
  have h1 : countReplace authMatch l = (0, l) := countReplace_id _ hnone1 l hPl
  have h2 : countReplace cookieMatch l = (0, l) := countReplace_id _ hnone2 l hPl
  have h3 : countReplace bearerMatch l = (0, l) := countReplace_id _ hnone3 l hPl
  have h4 : countReplace jwtMatch l = (0, l) := countReplace_id _ hnone4 l hPl
  have hrc : runCount isAlnumB t = (t.length, []) := runCount_all t ht
  constructor
  · intro hlt
    have hm5 : apiKeyMatch ('s' :: 'k' :: '-' :: t) = none := by
      simp [apiKeyMatch, hrc]
      omega
    have hmk : apiKeyMatch ('k' :: '-' :: t) = none := by
      cases t with
      | nil => rfl
      | cons c ts => simp [apiKeyMatch]
    have hmd : apiKeyMatch ('-' :: t) = none := by
      cases t with
      | nil => rfl
      | cons c ts =>
        cases ts with
        | nil => rfl
        | cons c' ts' => simp [apiKeyMatch]
    have h5 : countReplace apiKeyMatch l = (0, l) := by
      unfold countReplace
      rw [hl]
      simp only [List.length_cons]
      rw [scanAux_cons_none _ _ _ _ hm5, scanAux_cons_none _ _ _ _ hmk,
        scanAux_cons_none _ _ _ _ hmd,
        scanAux_id apiKeyMatch apiKeyMatch_alnum_none t.length t ht]
    show redactString ⟨l⟩ freshReport = (⟨l⟩, freshReport)
    unfold redactString redactionRules
    simp only [List.foldl_cons, List.foldl_nil, redactStep, ruleMatcher]
    rw [h1]
    simp only [recordMatches, Nat.lt_irrefl, if_false]
    rw [h2]
    simp only [recordMatches, Nat.lt_irrefl, if_false]
    rw [h3]
    simp only [recordMatches, Nat.lt_irrefl, if_false]
    rw [h4]
    simp only [recordMatches, Nat.lt_irrefl, if_false]
    rw [h5]
    simp only [recordMatches, Nat.lt_irrefl, if_false]
  · intro hge
    have hm5 : apiKeyMatch ('s' :: 'k' :: '-' :: t) = some [] := by
      simp [apiKeyMatch, hrc]
      omega
    have h5 : countReplace apiKeyMatch l = (1, redactedChars) := by
      unfold countReplace
      rw [hl]
      simp only [List.length_cons]
      rw [scanAux_cons_some _ _ _ _ _ hm5]
      simp [scanAux]
    show redactString ⟨l⟩ freshReport = ("[REDACTED]", ⟨1, ⟨0, 0, 0, 0, 1⟩⟩)
    unfold redactString redactionRules
    simp only [List.foldl_cons, List.foldl_nil, redactStep, ruleMatcher]
    rw [h1]
    simp only [recordMatches, Nat.lt_irrefl, if_false]
    rw [h2]
    simp only [recordMatches, Nat.lt_irrefl, if_false]
    rw [h3]
    simp only [recordMatches, Nat.lt_irrefl, if_false]
    rw [h4]
    simp only [recordMatches, Nat.lt_irrefl, if_false]
    rw [h5]
    simp only [recordMatches, Nat.zero_lt_one, if_true]
    rfl

/-- C5 witness: the amended claim at `t` = twenty `a`s and at `t = "abc"`. -/
theorem redactString_sk_c5_witness :
    (("aaaaaaaaaaaaaaaaaaaa".data.length < 20 →
      redactString ⟨'s' :: 'k' :: '-' :: "aaaaaaaaaaaaaaaaaaaa".data⟩ freshReport =
        (⟨'s' :: 'k' :: '-' :: "aaaaaaaaaaaaaaaaaaaa".data⟩, freshReport)) ∧
    (20 ≤ "aaaaaaaaaaaaaaaaaaaa".data.length →
      redactString ⟨'s' :: 'k' :: '-' :: "aaaaaaaaaaaaaaaaaaaa".data⟩ freshReport =
        ("[REDACTED]", ⟨1, ⟨0, 0, 0, 0, 1⟩⟩))) ∧
    (("abc".data.length < 20 →
      redactString ⟨'s' :: 'k' :: '-' :: "abc".data⟩ freshReport =
        (⟨'s' :: 'k' :: '-' :: "abc".data⟩, freshReport)) ∧
    (20 ≤ "abc".data.length →
      redactString ⟨'s' :: 'k' :: '-' :: "abc".data⟩ freshReport =
        ("[REDACTED]", ⟨1, ⟨0, 0, 0, 0, 1⟩⟩))) :=
  ⟨redactString_sk_c5 "aaaaaaaaaaaaaaaaaaaa".data (by decide),
   redactString_sk_c5 "abc".data (by decide)⟩

/-! ## safeStringify (src/browser/redaction.ts) with its cycle guard

Arbitrary JavaScript runtime values are modelled as `JSVal`; plain objects
live in an explicit heap (`Heap`) mapping addresses to property lists, so
that self-referential objects are expressible.  `JSON.stringify(value,
replacer)` with the `WeakSet`-based replacer of `safeStringify` is embedded
as a well-founded recursion (`stringifyV`/`stringifyFields`): the set of
already-visited addresses (`seen`) only grows, and each descent into an
unvisited object strictly shrinks the set of heap addresses not yet seen —
which is exactly why the original code cannot recurse unboundedly.  String
escaping inside JSON string literals and arrays are not modelled (the
claims under verification do not involve them); `undefined`-valued
properties are omitted as `JSON.stringify` does, and error objects
serialize to `\x7b\x7d` (no enumerable own properties). -/

/-- A JavaScript runtime value. -/
inductive JSVal where
  | vnull
  | vundef
  | vbool (b : Bool)
  | vnum (n : Int)
  | vstr (s : String)
  | verr (message : String)
  | vobj (addr : Nat)
deriving DecidableEq

/-- An object heap: address to enumerable own properties. -/
abbrev Heap := List (Nat × List (String × JSVal))

/-- The number of heap addresses not yet in the `seen` set — the measure that
bounds the recursion depth of the serialization. -/
def unseenCount (h : Heap) (seen : List Nat) : Nat :=
  ((h.map Prod.fst).filter (fun a => !(seen.contains a))).length

theorem filter_length_mono {α : Type} {l : List α} {p q : α → Bool}
    (himp : ∀ x, p x = true → q x = true) :
    (l.filter p).length ≤ (l.filter q).length := by
  induction l with
  | nil => exact Nat.le_refl 0
  | cons c cs ih =>
    rcases hp : p c with _ | _
    · rcases hq : q c with _ | _
      · simp only [List.filter_cons, hp, hq, Bool.false_eq_true, if_false]
        exact ih
      · simp only [List.filter_cons, hp, hq, Bool.false_eq_true, if_false,
          if_true, List.length_cons]
        exact Nat.le_succ_of_le ih
    · have hqc := himp c hp
      simp only [List.filter_cons, hp, hqc, if_true, List.length_cons]
      exact Nat.succ_le_succ ih

theorem filter_length_lt {α : Type} {l : List α} {p q : α → Bool}
    (himp : ∀ x, p x = true → q x = true) {b : α} (hb : b ∈ l)
    (hqb : q b = true) (hpb : p b = false) :
    (l.filter p).length < (l.filter q).length := by
  induction l with
  | nil => cases hb
  | cons c cs ih =>
    cases hb with
    | head =>
      simp only [List.filter_cons, hpb, hqb, Bool.false_eq_true, if_false,
        if_true, List.length_cons]
      exact Nat.lt_succ_of_le (filter_length_mono himp)
    | tail _ hb =>
      rcases hp : p c with _ | _
      · rcases hq : q c with _ | _
        · simp only [List.filter_cons, hp, hq, Bool.false_eq_true, if_false]
          exact ih hb
        · simp only [List.filter_cons, hp, hq, Bool.false_eq_true, if_false,
            if_true, List.length_cons]
          exact Nat.lt_succ_of_lt (ih hb)
      · have hqc := himp c hp
        simp only [List.filter_cons, hp, hqc, if_true, List.length_cons]
        exact Nat.succ_lt_succ (ih hb)

theorem contains_of_contains_right {a : Nat} (s1 : List Nat) {s2 : List Nat}
    (h : s2.contains a = true) : (s1 ++ s2).contains a = true := by
  simp only [List.elem_eq_mem, decide_eq_true_eq] at h ⊢
  exact List.mem_append_right s1 h

theorem contains_of_cons_self (a : Nat) (s : List Nat) : (a :: s).contains a = true := by
  simp

theorem unseenCount_append_le (h : Heap) (s1 s2 : List Nat) :
    unseenCount h (s1 ++ s2) ≤ unseenCount h s2 := by
  unfold unseenCount
  apply filter_length_mono
  intro x hx
  simp only [Bool.not_eq_true'] at hx ⊢
  rcases hc : s2.contains x with _ | _
  · rfl
  · rw [contains_of_contains_right s1 hc] at hx
    cases hx

theorem lookup_mem_keys {β : Type} {l : List (Nat × β)} {a : Nat} {v : β}
    (h : List.lookup a l = some v) : a ∈ l.map Prod.fst := by
  induction l with
  | nil => simp [List.lookup] at h
  | cons p rest ih =>
    rw [List.lookup] at h
    split at h
    · next heq =>
      simp only [beq_iff_eq] at heq
      simp [heq]
    · simp only [List.map_cons, List.mem_cons]
      exact Or.inr (ih h)

theorem unseenCount_cons_lt {h : Heap} {a : Nat} {seen : List Nat}
    (ha : a ∈ h.map Prod.fst) (hns : seen.contains a = false) :
    unseenCount h (a :: seen) < unseenCount h seen := by
  unfold unseenCount
  apply filter_length_lt (b := a) _ ha
  · rw [hns]; rfl
  · rw [contains_of_cons_self a seen]; rfl
  · intro x hx
    simp only [Bool.not_eq_true'] at hx ⊢
    rcases hc : seen.contains x with _ | _
    · rfl
    · exfalso
      have : (x :: seen).contains x = true := contains_of_cons_self x seen
      have hxc : (a :: seen).contains x = true := by
        simp only [List.elem_eq_mem, decide_eq_true_eq] at hc ⊢
        exact List.mem_cons_of_mem a hc
      rw [hxc] at hx
      cases hx

/-- Quoted JSON string (escaping of special characters not modelled). -/
def jsonKey (s : String) : String := "\"" ++ s ++ "\""

/-- JSON text of a non-object value appearing as a property value. -/
def primJson : JSVal → String
  | .vnull => "null"
  | .vundef => "undefined"
  | .vbool b => if b then "true" else "false"
  | .vnum n => toString n
  | .vstr s => jsonKey s
  | .verr _ => "\x7b\x7d"
  | .vobj _ => ""

mutual

/-- Serialize the object at address `a` with the replacer's cycle guard:
a second visit yields the JSON string literal `"[Circular]"`; a first visit
adds `a` to the `seen` set and serializes the properties.  (A dangling
address serializes as `null`; it cannot arise from a real object graph.) -/
def stringifyV (h : Heap) (seen : List Nat) (a : Nat) : String × List Nat :=
  if hmem : seen.contains a = true then ("\"[Circular]\"", seen)
  else
    match hl : List.lookup a h with
    | none => ("null", seen)
    | some fields =>
      let r := stringifyFields h (a :: seen) fields
      ("\x7b" ++ r.1 ++ "\x7d", r.2)
termination_by (unseenCount h seen, 0)
decreasing_by
  apply Prod.Lex.left
  exact unseenCount_cons_lt (lookup_mem_keys hl) (by simpa using hmem)

/-- Serialize a property list, threading the visited set left to right as
the `WeakSet` mutation does (the set passed to later siblings includes every
address added while serializing earlier siblings). -/
def stringifyFields (h : Heap) (seen : List Nat) :
    List (String × JSVal) → String × List Nat
  | [] => ("", seen)
  | (k, v) :: rest =>
    match v with
    | .vundef => stringifyFields h seen rest
    | .vobj a =>
      let r1 := stringifyV h seen a
      let r2 := stringifyFields h (r1.2 ++ seen) rest
      (jsonKey k ++ ":" ++ r1.1 ++ (if r2.1 = "" then "" else "," ++ r2.1), r2.2)
    | v' =>
      let r2 := stringifyFields h seen rest
      (jsonKey k ++ ":" ++ primJson v' ++ (if r2.1 = "" then "" else "," ++ r2.1), r2.2)
termination_by fields => (unseenCount h seen, fields.length + 1)
decreasing_by
  all_goals simp only [List.length_cons]
  all_goals first
    | (apply Prod.Lex.right
       omega)
    | (rcases Nat.lt_or_eq_of_le (unseenCount_append_le h r1.2 seen) with hlt | heq
       · exact Prod.Lex.left _ _ hlt
       · rw [heq]
         apply Prod.Lex.right
         omega)

end

/-- `JSON.stringify(value, replacer)` for an object root: the replacer is
applied to the root itself first (adding it to the fresh `WeakSet`). -/
def jsonRootObj (h : Heap) (a : Nat) : String :=
  (stringifyV h [] a).1

/-- Embedding of `safeStringify(value, maxLength)`: `null`/`undefined`
literals, error message (with the `String(value)` fallback "Error" for an
empty message), strings as-is, objects via guarded `JSON.stringify`, other
primitives via their default textual form — every branch ending in
`truncateString`. -/
def safeStringify (h : Heap) (v : JSVal) (maxLength : Nat) : String :=
  match v with
  | .vnull => "null"
  | .vundef => "undefined"
  | .verr msg => truncateString (if msg = "" then "Error" else msg) maxLength
  | .vstr s => truncateString s maxLength
  | .vobj a => truncateString (jsonRootObj h a) maxLength
  | .vbool b => truncateString (if b then "true" else "false") maxLength
  | .vnum n => truncateString (toString n) maxLength

/-! ### Substring infrastructure -/

/-- `m` occurs contiguously inside `t`. -/
def SubSeg (m t : List Char) : Prop := ∃ p q, t = p ++ m ++ q

theorem SubSeg_append_left {m s : List Char} (t : List Char) (h : SubSeg m s) :
    SubSeg m (t ++ s) := by
  rcases h with ⟨p, q, rfl⟩
  exact ⟨t ++ p, q, by simp⟩

theorem SubSeg_append_right {m s : List Char} (t : List Char) (h : SubSeg m s) :
    SubSeg m (s ++ t) := by
  rcases h with ⟨p, q, rfl⟩
  exact ⟨p, q ++ t, by simp⟩

theorem SubSeg_trans {m1 m2 t : List Char} (h1 : SubSeg m1 m2) (h2 : SubSeg m2 t) :
    SubSeg m1 t := by
  rcases h1 with ⟨p1, q1, rfl⟩
  rcases h2 with ⟨p2, q2, rfl⟩
  exact ⟨p2 ++ p1, q1 ++ q2, by simp⟩

theorem SubSeg_nonempty {c : Char} {m t : List Char} (h : SubSeg (c :: m) t) :
    t ≠ [] := by
  rcases h with ⟨p, q, rfl⟩
  simp

theorem prefixCheck_iff (m : List Char) :
    ∀ (t : List Char), prefixCheck m t = true ↔ ∃ q, t = m ++ q := by
  induction m with
  | nil =>
    intro t
    simp [prefixCheck]
  | cons a as ih =>
    intro t
    cases t with
    | nil =>
      simp [prefixCheck]
    | cons b bs =>
      simp only [prefixCheck, Bool.and_eq_true, beq_iff_eq, ih bs]
      constructor
      · rintro ⟨rfl, q, rfl⟩
        exact ⟨q, rfl⟩
      · rintro ⟨q, heq⟩
        simp only [List.cons_append, List.cons.injEq] at heq
        exact ⟨heq.1.symm, q, heq.2⟩

theorem containsSub_iff (m : List Char) :
    ∀ (t : List Char), containsSub m t = true ↔ SubSeg m t := by
  intro t
  induction t with
  | nil =>
    simp only [containsSub, prefixCheck_iff, SubSeg]
    constructor
    · rintro ⟨q, hq⟩
      exact ⟨[], q, hq⟩
    · rintro ⟨p, q, hpq⟩
      obtain ⟨hpm, hq⟩ := List.append_eq_nil.mp hpq.symm
      obtain ⟨hp, hm⟩ := List.append_eq_nil.mp hpm
      exact ⟨[], by simp [hm]⟩
  | cons c cs ih =>
    simp only [containsSub, Bool.or_eq_true, prefixCheck_iff, ih]
    constructor
    · rintro (⟨q, hq⟩ | ⟨p, q, rfl⟩)
      · exact ⟨[], q, hq⟩
      · exact ⟨c :: p, q, rfl⟩
    · rintro ⟨p, q, heq⟩
      cases p with
      | nil => exact Or.inl ⟨q, heq⟩
      | cons d ds =>
        simp only [List.cons_append, List.cons.injEq] at heq
        exact Or.inr ⟨ds, q, heq.2⟩

/-! ### Claim C4 — circular-reference safety -/

theorem truncateString_of_le (s : String) (n : Nat) (h : s.length ≤ n) :
    truncateString s n = s := by
  unfold truncateString
  split
  · rfl
  · next hneg => exact absurd h hneg

/-- The JSON string literal produced by the replacer for a revisited object. -/
def circLit : String := "\"[Circular]\""

theorem stringifyV_seen (h : Heap) (seen : List Nat) (a : Nat)
    (hs : seen.contains a = true) :
    stringifyV h seen a = (circLit, seen) := by
  rw [stringifyV, dif_pos hs]
  rfl

/-- If the address `a` is already in the visited set, serializing a property
list that holds a direct reference to `a` produces text containing the
`"[Circular]"` literal. -/
theorem marker_in_fields (h : Heap) (a : Nat) (k : String) :
    ∀ (fields : List (String × JSVal)) (seen : List Nat),
      seen.contains a = true → (k, JSVal.vobj a) ∈ fields →
      SubSeg circLit.data ((stringifyFields h seen fields).1).data := by
  intro fields
  induction fields with
  | nil => intro seen _ hmem; cases hmem
  | cons kv rest ih =>
    intro seen hseen hmem
    obtain ⟨k', v'⟩ := kv
    cases hmem with
    | head =>
      rw [stringifyFields]
      simp only [stringifyV_seen h seen a hseen]
      refine ⟨(jsonKey k ++ ":").data, ?_, ?_⟩
      · exact (if (stringifyFields h ((circLit, seen).2 ++ seen) rest).1 = ""
          then "" else "," ++ (stringifyFields h ((circLit, seen).2 ++ seen) rest).1).data
      · simp [String.data_append]
    | tail _ hmem =>
      have hstep : ∀ (piece : String) (seen' : List Nat),
          seen'.contains a = true →
          SubSeg circLit.data ((piece ++
            (if (stringifyFields h seen' rest).1 = "" then ""
             else "," ++ (stringifyFields h seen' rest).1)).data) := by
        intro piece seen' hseen'
        have hsub := ih seen' hseen' hmem
        have hne : ¬((stringifyFields h seen' rest).1 = "") := by
          intro hzero
          rw [hzero] at hsub
          exact SubSeg_nonempty hsub rfl
        rw [if_neg hne, String.data_append, String.data_append]
        exact SubSeg_append_left _ (SubSeg_append_left _ hsub)
      cases v' with
      | vundef =>
        rw [stringifyFields]
        exact ih seen hseen hmem
      | vobj b =>
        rw [stringifyFields]
        exact hstep _ _ (contains_of_contains_right _ hseen)
      | vnull =>
        rw [stringifyFields]
        all_goals try intro b hx
        all_goals try intro hx
        all_goals try cases hx
        exact hstep _ _ hseen
      | vbool b0 =>
        rw [stringifyFields]
        all_goals try intro b hx
        all_goals try intro hx
        all_goals try cases hx
        exact hstep _ _ hseen
      | vnum n0 =>
        rw [stringifyFields]
        all_goals try intro b hx
        all_goals try intro hx
        all_goals try cases hx
        exact hstep _ _ hseen
      | vstr s0 =>
        rw [stringifyFields]
        all_goals try intro b hx
        all_goals try intro hx
        all_goals try cases hx
        exact hstep _ _ hseen
      | verr msg0 =>
        rw [stringifyFields]
        all_goals try intro b hx
        all_goals try intro hx
        all_goals try cases hx
        exact hstep _ _ hseen

/-- The serialized root of a directly self-referential object contains the
`"[Circular]"` literal. -/
theorem marker_in_root (h : Heap) (a : Nat) (k : String)
    (fields : List (String × JSVal)) (hl : List.lookup a h = some fields)
    (hmem : (k, JSVal.vobj a) ∈ fields) :
    SubSeg circLit.data (jsonRootObj h a).data := by
  have hnc : ¬(([] : List Nat).contains a = true) := by simp
  have hv : stringifyV h [] a = ("\x7b" ++ (stringifyFields h [a] fields).1 ++ "\x7d",
      (stringifyFields h [a] fields).2) := by
    rw [stringifyV, dif_neg hnc]
    split
    · next heq =>
      rw [hl] at heq
      cases heq
    · next flds heq =>
      rw [hl] at heq
      injection heq with heq2
      subst heq2
      rfl
  unfold jsonRootObj
  rw [hv]
  have hin := marker_in_fields h a k fields [a] (contains_of_cons_self a []) hmem
  simp only [String.data_append]
  exact SubSeg_append_right _ (SubSeg_append_left _ hin)

/-- The bracketed marker contains the bare marker. -/
theorem marker_sub_circLit : SubSeg "[Circular]".data circLit.data :=
  ⟨['\"'], ['\"'], rfl⟩

/-- The concrete self-referential heap `const obj = {}; obj.self = obj`. -/
def cycHeap : Heap := [(0, [("self", JSVal.vobj 0)])]

/-- C4 counterexample: for the self-referential object `obj.self = obj` and
the positive `maxLength = 1`, `safeStringify` still terminates and does not
throw, but its output is the bare truncation marker `"...[truncated]"`,
which does not contain `'[Circular]'` — refuting "for every positive
maxLength ... its output contains the circular-reference marker". -/
theorem safeStringify_c4_cex :
    0 < 1 ∧
    safeStringify cycHeap (.vobj 0) 1 = "...[truncated]" ∧
    containsSub "[Circular]".data (safeStringify cycHeap (.vobj 0) 1).data = false := by
  have hj : jsonRootObj cycHeap 0 = "\x7b\"self\":\"[Circular]\"\x7d" := by
    simp [jsonRootObj, stringifyV, stringifyFields, cycHeap, jsonKey, List.lookup]
  refine ⟨by decide, ?_, ?_⟩
  · show truncateString (jsonRootObj cycHeap 0) 1 = "...[truncated]"
    rw [hj]
    decide
  · show containsSub "[Circular]".data (truncateString (jsonRootObj cycHeap 0) 1).data = false
    rw [hj]
    decide

/-- C4 (amended): for every heap and every directly self-referential object
(an object whose property list holds a reference to the object itself),
`safeStringify` terminates and never throws (it is a total function, built
on a well-founded recursion whose measure is the number of unvisited heap
addresses), the serialized JSON produced by the guarded `JSON.stringify`
always contains the circular-reference marker `[Circular]`, and the
returned output contains the marker whenever `maxLength` is at least the
serialized length (truncation is the only way the marker can be lost). -/
theorem safeStringify_circular_c4 (h : Heap) (a : Nat) (k : String)
    (fields : List (String × JSVal)) (maxLength : Nat)
    (hl : List.lookup a h = some fields)
    (hmem : (k, JSVal.vobj a) ∈ fields) :
    containsSub "[Circular]".data (jsonRootObj h a).data = true ∧
    ((jsonRootObj h a).length ≤ maxLength →
      containsSub "[Circular]".data (safeStringify h (.vobj a) maxLength).data = true) := by
  have hroot : SubSeg "[Circular]".data (jsonRootObj h a).data :=
    SubSeg_trans marker_sub_circLit (marker_in_root h a k fields hl hmem)
  constructor
  · exact (containsSub_iff _ _).mpr hroot
  · intro hle
    show containsSub "[Circular]".data (truncateString (jsonRootObj h a) maxLength).data = true
    rw [truncateString_of_le _ _ hle]
    exact (containsSub_iff _ _).mpr hroot

/-- C4 witness: the amended claim at the concrete heap `obj.self = obj` with
a generous `maxLength`. -/
theorem safeStringify_circular_c4_witness :
    containsSub "[Circular]".data (jsonRootObj cycHeap 0).data = true ∧
    ((jsonRootObj cycHeap 0).length ≤ 100 →
      containsSub "[Circular]".data (safeStringify cycHeap (.vobj 0) 100).data = true) :=
  safeStringify_circular_c4 cycHeap 0 "self" [("self", JSVal.vobj 0)] 100 rfl
    (List.mem_cons_self _ _)

/-! ### Claim C6 — idempotence of redaction

The second `redactString` pass finds nothing because the output of the first
pass admits no match of any rule at any position.  The proof works through
an analysis of the scan output: every position of the output either carries
an original character that the scan tried and failed, or lies inside an
inserted `[REDACTED]` placeholder; a would-be match in the output is
transported back to a match in the input text, contradicting the recorded
failure.  The bracket characters of the placeholder are what make the
transport work: no rule's mandatory pattern parts can match across a
placeholder boundary. -/

theorem stripICase_append_of {pat A rA : List Char} (B : List Char)
    (h : stripICase pat A = some rA) : stripICase pat (A ++ B) = some (rA ++ B) := by
  induction pat generalizing A rA with
  | nil =>
    simp only [stripICase, Option.some.injEq] at h ⊢
    rw [h]
  | cons p ps ih =>
    cases A with
    | nil => simp [stripICase] at h
    | cons c cs =>
      simp only [stripICase] at h ⊢
      split at h
      · next heq => rw [if_pos heq]; exact ih h
      · cases h

theorem stripICase_append_cases {pat A B r : List Char}
    (h : stripICase pat (A ++ B) = some r) :
    (∃ rA, stripICase pat A = some rA ∧ r = rA ++ B) ∨
    (∃ patH patB, pat = patH ++ patB ∧ patB ≠ [] ∧ stripICase patB B = some r) := by
  induction pat generalizing A with
  | nil =>
    simp only [stripICase, Option.some.injEq] at h
    exact Or.inl ⟨A, rfl, h.symm⟩
  | cons p ps ih =>
    cases A with
    | nil =>
      exact Or.inr ⟨[], p :: ps, rfl, by simp, h⟩
    | cons c cs =>
      rw [List.cons_append, stripICase] at h
      split at h
      · next heq =>
        rcases ih h with ⟨rA, hA, hr⟩ | ⟨patH, patB, hpat, hne, hB⟩
        · exact Or.inl ⟨rA, by rw [stripICase, if_pos heq]; exact hA, hr⟩
        · exact Or.inr ⟨p :: patH, patB, by rw [hpat]; rfl, hne, hB⟩
      · cases h

theorem stripExact_append_of {pat A rA : List Char} (B : List Char)
    (h : stripExact pat A = some rA) : stripExact pat (A ++ B) = some (rA ++ B) := by
  induction pat generalizing A rA with
  | nil =>
    simp only [stripExact, Option.some.injEq] at h ⊢
    rw [h]
  | cons p ps ih =>
    cases A with
    | nil => simp [stripExact] at h
    | cons c cs =>
      simp only [stripExact] at h ⊢
      split at h
      · next heq => rw [if_pos heq]; exact ih h
      · cases h

theorem stripExact_append_cases {pat A B r : List Char}
    (h : stripExact pat (A ++ B) = some r) :
    (∃ rA, stripExact pat A = some rA ∧ r = rA ++ B) ∨
    (∃ patH patB, pat = patH ++ patB ∧ patB ≠ [] ∧ stripExact patB B = some r) := by
  induction pat generalizing A with
  | nil =>
    simp only [stripExact, Option.some.injEq] at h
    exact Or.inl ⟨A, rfl, h.symm⟩
  | cons p ps ih =>
    cases A with
    | nil =>
      exact Or.inr ⟨[], p :: ps, rfl, by simp, h⟩
    | cons c cs =>
      rw [List.cons_append, stripExact] at h
      split at h
      · next heq =>
        rcases ih h with ⟨rA, hA, hr⟩ | ⟨patH, patB, hpat, hne, hB⟩
        · exact Or.inl ⟨rA, by rw [stripExact, if_pos heq]; exact hA, hr⟩
        · exact Or.inr ⟨p :: patH, patB, by rw [hpat]; rfl, hne, hB⟩
      · cases h

theorem dropRun_append (p : Char → Bool) (A B : List Char) :
    dropRun p (A ++ B) =
      if dropRun p A = [] then dropRun p B else dropRun p A ++ B := by
  induction A with
  | nil => simp [dropRun]
  | cons c cs ih =>
    rw [List.cons_append, dropRun, dropRun]
    split
    · exact ih
    · simp

theorem dropRun_head_false {p : Char → Bool} {l : List Char} {c : Char} {t : List Char}
    (h : dropRun p l = c :: t) : p c = false := by
  induction l with
  | nil => simp [dropRun] at h
  | cons d ds ih =>
    rw [dropRun] at h
    split at h
    · exact ih h
    · next hd =>
      cases h
      simpa using hd

theorem run1_append_cases {p : Char → Bool} {A B r : List Char}
    (h : run1 p (A ++ B) = some r) :
    (A = [] ∧ run1 p B = some r) ∨
    (∃ a as, A = a :: as ∧ p a = true ∧ r = dropRun p (as ++ B)) := by
  cases A with
  | nil => exact Or.inl ⟨rfl, h⟩
  | cons a as =>
    rw [List.cons_append] at h
    simp only [run1] at h
    split at h
    · next hp =>
      simp only [Option.some.injEq] at h
      exact Or.inr ⟨a, as, rfl, hp, h.symm⟩
    · cases h

theorem charStrip_append_cases {ch : Char} {A B r : List Char}
    (h : charStrip ch (A ++ B) = some r) :
    (A = [] ∧ charStrip ch B = some r) ∨
    (∃ as, A = ch :: as ∧ r = as ++ B) := by
  cases A with
  | nil => exact Or.inl ⟨rfl, h⟩
  | cons a as =>
    rw [List.cons_append] at h
    simp only [charStrip] at h
    split at h
    · next hc =>
      simp only [Option.some.injEq] at h
      exact Or.inr ⟨as, by rw [hc], h.symm⟩
    · cases h

theorem runCount_fst_le_append (p : Char → Bool) (A B : List Char) :
    (runCount p A).1 ≤ (runCount p (A ++ B)).1 := by
  induction A with
  | nil => simp [runCount]
  | cons c cs ih =>
    rw [List.cons_append, runCount, runCount]
    split
    · simpa using ih
    · simp

theorem runCount_fst_stop (p : Char → Bool) (A : List Char) {b : Char} (B : List Char)
    (hb : p b = false) :
    (runCount p (A ++ b :: B)).1 = (runCount p A).1 := by
  induction A with
  | nil => simp [runCount, hb]
  | cons c cs ih =>
    rw [List.cons_append, runCount, runCount]
    split
    · simpa using ih
    · rfl

theorem runCount_snd_suffix (p : Char → Bool) : ∀ (l : List Char), (runCount p l).2 <:+ l := by
  intro l
  induction l with
  | nil => exact List.suffix_refl _
  | cons c cs ih =>
    rw [runCount]
    split
    · exact ih.trans (List.suffix_cons c cs)
    · exact List.suffix_refl _

theorem optCharStrip_suffix (ch : Char) (l : List Char) : optCharStrip ch l <:+ l := by
  cases l with
  | nil => exact List.suffix_refl _
  | cons c cs =>
    rw [optCharStrip]
    split
    · exact List.suffix_cons c cs
    · exact List.suffix_refl _

/-- A matcher finds nothing at any position of `l`: it fails on every suffix. -/
def NoMatchOn (m : List Char → Option (List Char)) (l : List Char) : Prop :=
  ∀ s, s <:+ l → m s = none

theorem scan_of_noMatch (m : List Char → Option (List Char)) :
    ∀ (fuel : Nat) (l : List Char), NoMatchOn m l → scanAux m fuel l = (0, l) := by
  intro fuel
  induction fuel with
  | zero => intro l _; rfl
  | succ fuel ih =>
    intro l h
    cases l with
    | nil => rfl
    | cons c rest =>
      rw [scanAux_cons_none m fuel c rest (h _ (List.suffix_refl _)),
        ih rest (fun s hs => h s (hs.trans (List.suffix_cons c rest)))]

theorem suffix_append_cases {s A B : List Char} (h : s <:+ A ++ B) :
    s <:+ B ∨ ∃ A', A' <:+ A ∧ A' ≠ [] ∧ s = A' ++ B := by
  induction A with
  | nil => exact Or.inl (by simpa using h)
  | cons a A0 ih =>
    rw [List.cons_append] at h
    rcases List.suffix_cons_iff.mp h with rfl | h2
    · exact Or.inr ⟨a :: A0, List.suffix_refl _, by simp, rfl⟩
    · rcases ih h2 with h3 | ⟨A', hA, hne, rfl⟩
      · exact Or.inl h3
      · exact Or.inr ⟨A', hA.trans (List.suffix_cons a A0), hne, rfl⟩

/-- First-divergence shape of a scan output: either the text is returned
unchanged, or the output keeps an untouched prefix `p` of the input, the
input continues with a matched span, and the output continues with the
placeholder. -/
theorem scan_shape (m : List Char → Option (List Char)) :
    ∀ (fuel : Nat) (l : List Char), (scanAux m fuel l).2 = l ∨
      ∃ p sm rm tail, l = p ++ sm ∧ m sm = some rm ∧
        (scanAux m fuel l).2 = p ++ redactedChars ++ tail := by
  intro fuel
  induction fuel with
  | zero => intro l; exact Or.inl rfl
  | succ fuel ih =>
    intro l
    cases l with
    | nil => exact Or.inl rfl
    | cons c rest =>
      cases hm : m (c :: rest) with
      | some r =>
        rw [scanAux_cons_some m fuel c rest r hm]
        exact Or.inr ⟨[], c :: rest, r, (scanAux m fuel r).2, rfl, hm, rfl⟩
      | none =>
        rw [scanAux_cons_none m fuel c rest hm]
        rcases ih rest with h | ⟨p, sm, rm, tail, hrest, hms, hout⟩
        · left
          show c :: (scanAux m fuel rest).2 = c :: rest
          rw [h]
        · right
          refine ⟨c :: p, sm, rm, tail, by rw [hrest]; rfl, hms, ?_⟩
          show c :: (scanAux m fuel rest).2 = (c :: p) ++ redactedChars ++ tail
          rw [hout]
          rfl

theorem isWsB_toLower {c : Char} (h : isWsB c = true) : c.toLower = c := by
  simp only [isWsB, Bool.or_eq_true, decide_eq_true_eq] at h
  rcases h with ((((hc | hc) | hc) | hc) | hc) | hc <;> subst hc <;> decide

theorem toLower_not_ws {c d : Char} (h : c.toLower = d) (hd : isWsB d = false) :
    isWsB c = false := by
  cases hw : isWsB c with
  | false => rfl
  | true =>
    have e := isWsB_toLower hw
    rw [e] at h
    subst h
    rw [hw] at hd
    simp at hd

theorem stripICase_head {p : Char} {ps l r : List Char}
    (h : stripICase (p :: ps) l = some r) :
    ∃ c cs, l = c :: cs ∧ c.toLower = p := by
  cases l with
  | nil => simp [stripICase] at h
  | cons c cs =>
    simp only [stripICase] at h
    split at h
    · next heq => exact ⟨c, cs, rfl, heq⟩
    · cases h

theorem stripExact_head {p : Char} {ps l r : List Char}
    (h : stripExact (p :: ps) l = some r) :
    ∃ cs, l = p :: cs := by
  cases l with
  | nil => simp [stripExact] at h
  | cons c cs =>
    simp only [stripExact] at h
    split at h
    · next heq => exact ⟨cs, by rw [heq]⟩
    · cases h

/-- The central preservation lemma.  If every `mj`-failure position of `l` is
also an `mi`-failure position, then the output of an `mj`-pass over `l` has
no `mi`-match anywhere.  Instantiated with `mi = mj` it shows a pass cleans
its own rule; with `NoMatchOn mi l` it shows later passes preserve
cleanliness.  The per-rule obligations: `mi` fails on every nonempty
placeholder suffix however extended (`hplace`), and an `mi`-match reaching
the `'['` boundary transports to one over the reinstated matched input span
(`htrans`, using that every matched span starts with a non-whitespace
character, `hmjhead`). -/
theorem scan_preserve_noMatch (mi mj : List Char → Option (List Char))
    (hmjnil : mj [] = none)
    (hplace : ∀ psuf X, psuf <:+ redactedChars → psuf ≠ [] → mi (psuf ++ X) = none)
    (htrans : ∀ K T s0 Z, isWsB s0 = false →
        mi (K ++ '[' :: T) ≠ none → mi (K ++ s0 :: Z) ≠ none)
    (hmjhead : ∀ s r, mj s = some r → ∃ s0 s', s = s0 :: s' ∧ isWsB s0 = false)
    (hmjsub : ∀ s r, mj s = some r → r.length < s.length ∧ r <:+ s) :
    ∀ (fuel : Nat) (l : List Char), l.length ≤ fuel →
      (∀ s, s <:+ l → mj s = none → mi s = none) →
      NoMatchOn mi (scanAux mj fuel l).2 := by
  intro fuel
  induction fuel with
  | zero =>
    intro l hlen H
    have hl : l = [] := List.eq_nil_of_length_eq_zero (Nat.le_zero.mp hlen)
    subst hl
    intro s hs
    have h2 : (scanAux mj 0 ([] : List Char)).2 = [] := rfl
    rw [h2] at hs
    have h3 : s = [] := List.suffix_nil.mp hs
    subst h3
    exact H [] (List.suffix_refl _) hmjnil
  | succ fuel ih =>
    intro l hlen H
    cases l with
    | nil =>
      intro s hs
      have h2 : (scanAux mj (fuel + 1) ([] : List Char)).2 = [] := rfl
      rw [h2] at hs
      have h3 : s = [] := List.suffix_nil.mp hs
      subst h3
      exact H [] (List.suffix_refl _) hmjnil
    | cons c rest =>
      cases hm : mj (c :: rest) with
      | some r =>
        rw [scanAux_cons_some mj fuel c rest r hm]
        show NoMatchOn mi (redactedChars ++ (scanAux mj fuel r).2)
        have hsub := hmjsub _ _ hm
        have hrlen : r.length ≤ fuel := by
          have h1 := hsub.1
          simp only [List.length_cons] at h1 hlen
          omega
        have Hr : ∀ s, s <:+ r → mj s = none → mi s = none := fun s hs hmj =>
          H s (hs.trans hsub.2) hmj
        have ihr := ih r hrlen Hr
        intro s hs
        rcases suffix_append_cases hs with hs2 | ⟨psuf, hps, hne, rfl⟩
        · exact ihr s hs2
        · exact hplace psuf _ hps hne
      | none =>
        rw [scanAux_cons_none mj fuel c rest hm]
        show NoMatchOn mi (c :: (scanAux mj fuel rest).2)
        have Hrest : ∀ s, s <:+ rest → mj s = none → mi s = none := fun s hs hmj =>
          H s (hs.trans (List.suffix_cons c rest)) hmj
        have hrl : rest.length ≤ fuel := by
          simp only [List.length_cons] at hlen
          omega
        have ihr := ih rest hrl Hrest
        intro s hs
        rcases List.suffix_cons_iff.mp hs with rfl | hs2
        · by_contra hne
          rcases scan_shape mj fuel rest with hsh | ⟨p, sm, rm, tail, hrest, hms, hout⟩
          · rw [hsh] at hne
            exact hne (H (c :: rest) (List.suffix_refl _) hm)
          · rw [hout] at hne
            have e1 : c :: (p ++ redactedChars ++ tail) =
                (c :: p) ++ '[' :: ("REDACTED]".data ++ tail) := by
              rw [show redactedChars = '[' :: "REDACTED]".data from rfl]
              simp
            rw [e1] at hne
            rcases hmjhead _ _ hms with ⟨s0, stl, hsm, hws⟩
            have h3 := htrans (c :: p) _ s0 stl hws hne
            have e2 : (c :: p) ++ s0 :: stl = c :: rest := by
              rw [hrest, hsm]
              rfl
            rw [e2] at h3
            exact h3 (H (c :: rest) (List.suffix_refl _) hm)
        · exact ihr s hs2

theorem authMatch_nil : authMatch [] = none := by decide

theorem cookieMatch_nil : cookieMatch [] = none := by decide

theorem bearerMatch_nil : bearerMatch [] = none := by decide

theorem jwtMatch_nil : jwtMatch [] = none := by decide

theorem apiKeyMatch_nil : apiKeyMatch [] = none := by decide

theorem charStrip_suffix {ch : Char} {l r : List Char} (h : charStrip ch l = some r) :
    r <:+ l := by
  rw [charStrip_some h]
  exact List.suffix_cons ch r

theorem authMatch_head_ws {s r : List Char} (h : authMatch s = some r) :
    ∃ c cs, s = c :: cs ∧ isWsB c = false := by
  unfold authMatch at h
  split at h
  · cases h
  · next r1 heq =>
    rw [show "authorization:".data = 'a' :: "uthorization:".data from rfl] at heq
    obtain ⟨c, cs, rfl, hlow⟩ := stripICase_head heq
    exact ⟨c, cs, rfl, toLower_not_ws hlow (by decide)⟩

theorem cookieMatch_head_ws {s r : List Char} (h : cookieMatch s = some r) :
    ∃ c cs, s = c :: cs ∧ isWsB c = false := by
  unfold cookieMatch at h
  split at h
  · cases h
  · next r1 heq =>
    rw [show "cookie:".data = 'c' :: "ookie:".data from rfl] at heq
    obtain ⟨c, cs, rfl, hlow⟩ := stripICase_head heq
    exact ⟨c, cs, rfl, toLower_not_ws hlow (by decide)⟩

theorem bearerMatch_head_ws {s r : List Char} (h : bearerMatch s = some r) :
    ∃ c cs, s = c :: cs ∧ isWsB c = false := by
  unfold bearerMatch at h
  split at h
  · cases h
  · next r1 heq =>
    rw [show "bearer".data = 'b' :: "earer".data from rfl] at heq
    obtain ⟨c, cs, rfl, hlow⟩ := stripICase_head heq
    exact ⟨c, cs, rfl, toLower_not_ws hlow (by decide)⟩

theorem jwtMatch_head_ws {s r : List Char} (h : jwtMatch s = some r) :
    ∃ c cs, s = c :: cs ∧ isWsB c = false := by
  unfold jwtMatch at h
  split at h
  · cases h
  · next r1 heq =>
    rw [show "eyJ".data = 'e' :: "yJ".data from rfl] at heq
    obtain ⟨cs, rfl⟩ := stripExact_head heq
    exact ⟨'e', cs, rfl, by decide⟩

theorem apiKeyMatch_head_ws {s r : List Char} (h : apiKeyMatch s = some r) :
    ∃ c cs, s = c :: cs ∧ isWsB c = false := by
  match s with
  | [] => simp [apiKeyMatch] at h
  | [c1] => simp [apiKeyMatch] at h
  | [c1, c2] => simp [apiKeyMatch] at h
  | c1 :: c2 :: c3 :: rest =>
    simp only [apiKeyMatch] at h
    split at h
    · next h1 => exact ⟨c1, c2 :: c3 :: rest, rfl, by rw [h1]; decide⟩
    · cases h

theorem authMatch_sub {s r : List Char} (h : authMatch s = some r) :
    r.length < s.length ∧ r <:+ s := by
  unfold authMatch at h
  split at h
  · cases h
  · next r1 heq =>
    have hs1 : r1 <:+ s := stripICase_suffix _ _ _ heq
    have hs2 : dropRun isWsB r1 <:+ r1 := dropRun_suffix _ _
    rcases run1_some h with ⟨c, cs, hdl, hpc, rfl⟩
    have hs3 : dropRun (fun c => !isWsB c) cs <:+ cs := dropRun_suffix _ _
    constructor
    · have l1 : (dropRun (fun c => !isWsB c) cs).length ≤ cs.length := hs3.length_le
      have l2 : (c :: cs).length ≤ r1.length := by rw [← hdl]; exact hs2.length_le
      have l3 : r1.length ≤ s.length := hs1.length_le
      simp only [List.length_cons] at l2
      omega
    · have h4 : dropRun (fun c => !isWsB c) cs <:+ c :: cs :=
        hs3.trans (List.suffix_cons c cs)
      rw [← hdl] at h4
      exact (h4.trans hs2).trans hs1

theorem cookieMatch_sub {s r : List Char} (h : cookieMatch s = some r) :
    r.length < s.length ∧ r <:+ s := by
  unfold cookieMatch at h
  split at h
  · cases h
  · next r1 heq =>
    have hs1 : r1 <:+ s := stripICase_suffix _ _ _ heq
    have hs2 : dropRun isWsB r1 <:+ r1 := dropRun_suffix _ _
    rcases run1_some h with ⟨c, cs, hdl, hpc, rfl⟩
    have hs3 : dropRun (fun c => !isWsB c) cs <:+ cs := dropRun_suffix _ _
    constructor
    · have l1 : (dropRun (fun c => !isWsB c) cs).length ≤ cs.length := hs3.length_le
      have l2 : (c :: cs).length ≤ r1.length := by rw [← hdl]; exact hs2.length_le
      have l3 : r1.length ≤ s.length := hs1.length_le
      simp only [List.length_cons] at l2
      omega
    · have h4 : dropRun (fun c => !isWsB c) cs <:+ c :: cs :=
        hs3.trans (List.suffix_cons c cs)
      rw [← hdl] at h4
      exact (h4.trans hs2).trans hs1

theorem bearerMatch_sub {s r : List Char} (h : bearerMatch s = some r) :
    r.length < s.length ∧ r <:+ s := by
  unfold bearerMatch at h
  split at h
  · cases h
  · next r1 h1 =>
    split at h
    · cases h
    · next r2 h2 =>
      split at h
      · cases h
      · next r3 h3 =>
        replace h : some (dropRun isTokenChar
            (optCharStrip '.' (dropRun isTokenChar (optCharStrip '.' r3)))) = some r := h
        injection h with h
        have hs1 : r1 <:+ s := stripICase_suffix _ _ _ h1
        rcases run1_some h2 with ⟨c, cs, hdl, hpc, rfl⟩
        have hs2 : dropRun isWsB cs <:+ cs := dropRun_suffix _ _
        have hs3 : r3 <:+ dropRun isWsB cs := run1_suffix h3
        have hs4 : optCharStrip '.' r3 <:+ r3 := optCharStrip_suffix _ _
        have hs5 : dropRun isTokenChar (optCharStrip '.' r3) <:+ optCharStrip '.' r3 :=
          dropRun_suffix _ _
        have hs6 : optCharStrip '.' (dropRun isTokenChar (optCharStrip '.' r3)) <:+
            dropRun isTokenChar (optCharStrip '.' r3) := optCharStrip_suffix _ _
        have hs7 : dropRun isTokenChar
            (optCharStrip '.' (dropRun isTokenChar (optCharStrip '.' r3))) <:+
            optCharStrip '.' (dropRun isTokenChar (optCharStrip '.' r3)) :=
          dropRun_suffix _ _
        have hr3 : r <:+ r3 := by
          rw [← h] at *
          exact ((hs7.trans hs6).trans hs5).trans hs4
        have hrcs : r <:+ cs := (hr3.trans hs3).trans hs2
        constructor
        · have l1 : r.length ≤ cs.length := hrcs.length_le
          have l2 : (c :: cs).length ≤ s.length := by rw [← hdl]; exact hs1.length_le
          simp only [List.length_cons] at l2
          omega
        · have h4 : r <:+ c :: cs := hrcs.trans (List.suffix_cons c cs)
          rw [← hdl] at h4
          exact h4.trans hs1

theorem jwtMatch_sub {s r : List Char} (h : jwtMatch s = some r) :
    r.length < s.length ∧ r <:+ s := by
  unfold jwtMatch at h
  split at h
  · cases h
  · next r1 h1 =>
    split at h
    · cases h
    · next r2 h2 =>
      split at h
      · cases h
      · next r3 h3 =>
        split at h
        · cases h
        · next r4 h4 =>
          split at h
          · cases h
          · next r5 h5 =>
            split at h
            · cases h
            · next r6 h6 =>
              have hs1 : r1 <:+ s := stripExact_suffix _ _ _ h1
              have hs2 : r2 <:+ r1 := run1_suffix h2
              have hs3 : r3 <:+ r2 := charStrip_suffix h3
              have hs4 : r4 <:+ r3 := stripExact_suffix _ _ _ h4
              have hs5 : r5 <:+ r4 := run1_suffix h5
              have hs6 : r6 <:+ r5 := charStrip_suffix h6
              rcases run1_some h with ⟨c, cs, hdl, hpc, rfl⟩
              have hs7 : dropRun isTokenChar cs <:+ cs := dropRun_suffix _ _
              have hr6 : dropRun isTokenChar cs <:+ r6 := by
                have h8 : dropRun isTokenChar cs <:+ c :: cs :=
                  hs7.trans (List.suffix_cons c cs)
                rw [← hdl] at h8
                exact h8
              constructor
              · have l1 : (dropRun isTokenChar cs).length ≤ cs.length := hs7.length_le
                have l2 : (c :: cs).length ≤ r5.length := by
                  rw [← hdl]; exact hs6.length_le
                have l3 : r5.length ≤ s.length :=
                  ((((hs5.trans hs4).trans hs3).trans hs2).trans hs1).length_le
                simp only [List.length_cons] at l2
                omega
              · exact ((((((hr6.trans hs6).trans hs5).trans hs4).trans
                  hs3).trans hs2).trans hs1)

theorem apiKeyMatch_sub {s r : List Char} (h : apiKeyMatch s = some r) :
    r.length < s.length ∧ r <:+ s := by
  match s with
  | [] => simp [apiKeyMatch] at h
  | [c1] => simp [apiKeyMatch] at h
  | [c1, c2] => simp [apiKeyMatch] at h
  | c1 :: c2 :: c3 :: rest =>
    simp only [apiKeyMatch] at h
    split at h
    · split at h
      · split at h
        · split at h
          · injection h with h
            have hs1 : (runCount isAlnumB rest).2 <:+ rest := runCount_snd_suffix _ _
            rw [← h]
            constructor
            · have l1 : (runCount isAlnumB rest).2.length ≤ rest.length := hs1.length_le
              simp only [List.length_cons]
              omega
            · exact ((hs1.trans (List.suffix_cons c3 rest)).trans
                (List.suffix_cons c2 (c3 :: rest))).trans
                (List.suffix_cons c1 (c2 :: c3 :: rest))
          · cases h
        · cases h
      · cases h
    · cases h

theorem authMatch_none1 {c : Char} (cs : List Char) (h : c.toLower ≠ 'a') :
    authMatch (c :: cs) = none := by
  unfold authMatch
  have hs : stripICase "authorization:".data (c :: cs) = none := by
    rw [show "authorization:".data = 'a' :: "uthorization:".data from rfl]
    simp [stripICase, h]
  rw [hs]

theorem authMatch_none2 {c1 c2 : Char} (cs : List Char) (h1 : c1.toLower = 'a')
    (h2 : c2.toLower ≠ 'u') : authMatch (c1 :: c2 :: cs) = none := by
  unfold authMatch
  have hs : stripICase "authorization:".data (c1 :: c2 :: cs) = none := by
    rw [show "authorization:".data = 'a' :: 'u' :: "thorization:".data from rfl]
    simp [stripICase, h1, h2]
  rw [hs]

theorem cookieMatch_none1 {c : Char} (cs : List Char) (h : c.toLower ≠ 'c') :
    cookieMatch (c :: cs) = none := by
  unfold cookieMatch
  have hs : stripICase "cookie:".data (c :: cs) = none := by
    rw [show "cookie:".data = 'c' :: "ookie:".data from rfl]
    simp [stripICase, h]
  rw [hs]

theorem cookieMatch_none2 {c1 c2 : Char} (cs : List Char) (h1 : c1.toLower = 'c')
    (h2 : c2.toLower ≠ 'o') : cookieMatch (c1 :: c2 :: cs) = none := by
  unfold cookieMatch
  have hs : stripICase "cookie:".data (c1 :: c2 :: cs) = none := by
    rw [show "cookie:".data = 'c' :: 'o' :: "okie:".data from rfl]
    simp [stripICase, h1, h2]
  rw [hs]

theorem bearerMatch_none1 {c : Char} (cs : List Char) (h : c.toLower ≠ 'b') :
    bearerMatch (c :: cs) = none := by
  unfold bearerMatch
  have hs : stripICase "bearer".data (c :: cs) = none := by
    rw [show "bearer".data = 'b' :: "earer".data from rfl]
    simp [stripICase, h]
  rw [hs]

theorem jwtMatch_none1 {c : Char} (cs : List Char) (h : c ≠ 'e') :
    jwtMatch (c :: cs) = none := by
  unfold jwtMatch
  have hs : stripExact "eyJ".data (c :: cs) = none := by
    rw [show "eyJ".data = 'e' :: "yJ".data from rfl]
    simp [stripExact, h]
  rw [hs]

theorem apiKeyMatch_none1 {c : Char} (cs : List Char) (h : c ≠ 's') :
    apiKeyMatch (c :: cs) = none := by
  match cs with
  | [] => rfl
  | [c2] => rfl
  | c2 :: c3 :: rest => simp [apiKeyMatch, h]

/-- The eleven suffixes of the placeholder text, by direct enumeration. -/
theorem suffix_redacted_cases {psuf : List Char} (h : psuf <:+ redactedChars) :
    psuf = [] ∨ psuf = "[REDACTED]".data ∨ psuf = "REDACTED]".data ∨
    psuf = "EDACTED]".data ∨ psuf = "DACTED]".data ∨ psuf = "ACTED]".data ∨
    psuf = "CTED]".data ∨ psuf = "TED]".data ∨ psuf = "ED]".data ∨
    psuf = "D]".data ∨ psuf = "]".data := by
  have hm : psuf ∈ redactedChars.tails := (List.mem_tails _ _).mpr h
  have key : ∀ x ∈ redactedChars.tails, x = [] ∨ x = "[REDACTED]".data ∨
      x = "REDACTED]".data ∨ x = "EDACTED]".data ∨ x = "DACTED]".data ∨
      x = "ACTED]".data ∨ x = "CTED]".data ∨ x = "TED]".data ∨ x = "ED]".data ∨
      x = "D]".data ∨ x = "]".data := by decide
  exact key psuf hm

theorem hplace_auth : ∀ psuf X, psuf <:+ redactedChars → psuf ≠ [] →
    authMatch (psuf ++ X) = none := by
  intro psuf X h hne
  rcases suffix_redacted_cases h with rfl | rfl | rfl | rfl | rfl | rfl | rfl | rfl | rfl | rfl | rfl
  · exact absurd rfl hne
  · rw [show "[REDACTED]".data ++ X = '[' :: ("REDACTED]".data ++ X) from rfl]
    exact authMatch_none1 _ (by decide)
  · rw [show "REDACTED]".data ++ X = 'R' :: ("EDACTED]".data ++ X) from rfl]
    exact authMatch_none1 _ (by decide)
  · rw [show "EDACTED]".data ++ X = 'E' :: ("DACTED]".data ++ X) from rfl]
    exact authMatch_none1 _ (by decide)
  · rw [show "DACTED]".data ++ X = 'D' :: ("ACTED]".data ++ X) from rfl]
    exact authMatch_none1 _ (by decide)
  · rw [show "ACTED]".data ++ X = 'A' :: 'C' :: ("TED]".data ++ X) from rfl]
    exact authMatch_none2 _ (by decide) (by decide)
  · rw [show "CTED]".data ++ X = 'C' :: ("TED]".data ++ X) from rfl]
    exact authMatch_none1 _ (by decide)
  · rw [show "TED]".data ++ X = 'T' :: ("ED]".data ++ X) from rfl]
    exact authMatch_none1 _ (by decide)
  · rw [show "ED]".data ++ X = 'E' :: ("D]".data ++ X) from rfl]
    exact authMatch_none1 _ (by decide)
  · rw [show "D]".data ++ X = 'D' :: ("]".data ++ X) from rfl]
    exact authMatch_none1 _ (by decide)
  · rw [show "]".data ++ X = ']' :: ([] ++ X) from rfl]
    exact authMatch_none1 _ (by decide)

theorem hplace_cookie : ∀ psuf X, psuf <:+ redactedChars → psuf ≠ [] →
    cookieMatch (psuf ++ X) = none := by
  intro psuf X h hne
  rcases suffix_redacted_cases h with rfl | rfl | rfl | rfl | rfl | rfl | rfl | rfl | rfl | rfl | rfl
  · exact absurd rfl hne
  · rw [show "[REDACTED]".data ++ X = '[' :: ("REDACTED]".data ++ X) from rfl]
    exact cookieMatch_none1 _ (by decide)
  · rw [show "REDACTED]".data ++ X = 'R' :: ("EDACTED]".data ++ X) from rfl]
    exact cookieMatch_none1 _ (by decide)
  · rw [show "EDACTED]".data ++ X = 'E' :: ("DACTED]".data ++ X) from rfl]
    exact cookieMatch_none1 _ (by decide)
  · rw [show "DACTED]".data ++ X = 'D' :: ("ACTED]".data ++ X) from rfl]
    exact cookieMatch_none1 _ (by decide)
  · rw [show "ACTED]".data ++ X = 'A' :: ("CTED]".data ++ X) from rfl]
    exact cookieMatch_none1 _ (by decide)
  · rw [show "CTED]".data ++ X = 'C' :: 'T' :: ("ED]".data ++ X) from rfl]
    exact cookieMatch_none2 _ (by decide) (by decide)
  · rw [show "TED]".data ++ X = 'T' :: ("ED]".data ++ X) from rfl]
    exact cookieMatch_none1 _ (by decide)
  · rw [show "ED]".data ++ X = 'E' :: ("D]".data ++ X) from rfl]
    exact cookieMatch_none1 _ (by decide)
  · rw [show "D]".data ++ X = 'D' :: ("]".data ++ X) from rfl]
    exact cookieMatch_none1 _ (by decide)
  · rw [show "]".data ++ X = ']' :: ([] ++ X) from rfl]
    exact cookieMatch_none1 _ (by decide)

theorem hplace_bearer : ∀ psuf X, psuf <:+ redactedChars → psuf ≠ [] →
    bearerMatch (psuf ++ X) = none := by
  intro psuf X h hne
  rcases suffix_redacted_cases h with rfl | rfl | rfl | rfl | rfl | rfl | rfl | rfl | rfl | rfl | rfl
  · exact absurd rfl hne
  · rw [show "[REDACTED]".data ++ X = '[' :: ("REDACTED]".data ++ X) from rfl]
    exact bearerMatch_none1 _ (by decide)
  · rw [show "REDACTED]".data ++ X = 'R' :: ("EDACTED]".data ++ X) from rfl]
    exact bearerMatch_none1 _ (by decide)
  · rw [show "EDACTED]".data ++ X = 'E' :: ("DACTED]".data ++ X) from rfl]
    exact bearerMatch_none1 _ (by decide)
  · rw [show "DACTED]".data ++ X = 'D' :: ("ACTED]".data ++ X) from rfl]
    exact bearerMatch_none1 _ (by decide)
  · rw [show "ACTED]".data ++ X = 'A' :: ("CTED]".data ++ X) from rfl]
    exact bearerMatch_none1 _ (by decide)
  · rw [show "CTED]".data ++ X = 'C' :: ("TED]".data ++ X) from rfl]
    exact bearerMatch_none1 _ (by decide)
  · rw [show "TED]".data ++ X = 'T' :: ("ED]".data ++ X) from rfl]
    exact bearerMatch_none1 _ (by decide)
  · rw [show "ED]".data ++ X = 'E' :: ("D]".data ++ X) from rfl]
    exact bearerMatch_none1 _ (by decide)
  · rw [show "D]".data ++ X = 'D' :: ("]".data ++ X) from rfl]
    exact bearerMatch_none1 _ (by decide)
  · rw [show "]".data ++ X = ']' :: ([] ++ X) from rfl]
    exact bearerMatch_none1 _ (by decide)

theorem hplace_jwt : ∀ psuf X, psuf <:+ redactedChars → psuf ≠ [] →
    jwtMatch (psuf ++ X) = none := by
  intro psuf X h hne
  rcases suffix_redacted_cases h with rfl | rfl | rfl | rfl | rfl | rfl | rfl | rfl | rfl | rfl | rfl
  · exact absurd rfl hne
  · rw [show "[REDACTED]".data ++ X = '[' :: ("REDACTED]".data ++ X) from rfl]
    exact jwtMatch_none1 _ (by decide)
  · rw [show "REDACTED]".data ++ X = 'R' :: ("EDACTED]".data ++ X) from rfl]
    exact jwtMatch_none1 _ (by decide)
  · rw [show "EDACTED]".data ++ X = 'E' :: ("DACTED]".data ++ X) from rfl]
    exact jwtMatch_none1 _ (by decide)
  · rw [show "DACTED]".data ++ X = 'D' :: ("ACTED]".data ++ X) from rfl]
    exact jwtMatch_none1 _ (by decide)
  · rw [show "ACTED]".data ++ X = 'A' :: ("CTED]".data ++ X) from rfl]
    exact jwtMatch_none1 _ (by decide)
  · rw [show "CTED]".data ++ X = 'C' :: ("TED]".data ++ X) from rfl]
    exact jwtMatch_none1 _ (by decide)
  · rw [show "TED]".data ++ X = 'T' :: ("ED]".data ++ X) from rfl]
    exact jwtMatch_none1 _ (by decide)
  · rw [show "ED]".data ++ X = 'E' :: ("D]".data ++ X) from rfl]
    exact jwtMatch_none1 _ (by decide)
  · rw [show "D]".data ++ X = 'D' :: ("]".data ++ X) from rfl]
    exact jwtMatch_none1 _ (by decide)
  · rw [show "]".data ++ X = ']' :: ([] ++ X) from rfl]
    exact jwtMatch_none1 _ (by decide)

theorem hplace_api : ∀ psuf X, psuf <:+ redactedChars → psuf ≠ [] →
    apiKeyMatch (psuf ++ X) = none := by
  intro psuf X h hne
  rcases suffix_redacted_cases h with rfl | rfl | rfl | rfl | rfl | rfl | rfl | rfl | rfl | rfl | rfl
  · exact absurd rfl hne
  · rw [show "[REDACTED]".data ++ X = '[' :: ("REDACTED]".data ++ X) from rfl]
    exact apiKeyMatch_none1 _ (by decide)
  · rw [show "REDACTED]".data ++ X = 'R' :: ("EDACTED]".data ++ X) from rfl]
    exact apiKeyMatch_none1 _ (by decide)
  · rw [show "EDACTED]".data ++ X = 'E' :: ("DACTED]".data ++ X) from rfl]
    exact apiKeyMatch_none1 _ (by decide)
  · rw [show "DACTED]".data ++ X = 'D' :: ("ACTED]".data ++ X) from rfl]
    exact apiKeyMatch_none1 _ (by decide)
  · rw [show "ACTED]".data ++ X = 'A' :: ("CTED]".data ++ X) from rfl]
    exact apiKeyMatch_none1 _ (by decide)
  · rw [show "CTED]".data ++ X = 'C' :: ("TED]".data ++ X) from rfl]
    exact apiKeyMatch_none1 _ (by decide)
  · rw [show "TED]".data ++ X = 'T' :: ("ED]".data ++ X) from rfl]
    exact apiKeyMatch_none1 _ (by decide)
  · rw [show "ED]".data ++ X = 'E' :: ("D]".data ++ X) from rfl]
    exact apiKeyMatch_none1 _ (by decide)
  · rw [show "D]".data ++ X = 'D' :: ("]".data ++ X) from rfl]
    exact apiKeyMatch_none1 _ (by decide)
  · rw [show "]".data ++ X = ']' :: ([] ++ X) from rfl]
    exact apiKeyMatch_none1 _ (by decide)

theorem ws_lbracket : isWsB '[' = false := by decide

theorem tok_lbracket : isTokenChar '[' = false := by decide

theorem alnum_lbracket : isAlnumB '[' = false := by decide

/-- A case-insensitive literal that does not contain `'['` cannot have a
nonempty tail start matching at a `'['`. -/
theorem stripICase_bracket_refute {pat patH patB T r : List Char}
    (hpat : pat = patH ++ patB) (hneB : patB ≠ [])
    (hB : stripICase patB ('[' :: T) = some r)
    (hnb : '[' ∉ pat) : False := by
  cases patB with
  | nil => exact hneB rfl
  | cons p ps =>
    obtain ⟨c, cs, hcc, hlow⟩ := stripICase_head hB
    injection hcc with h1 h2
    have hp : p = '[' := by
      rw [← h1] at hlow
      rw [← hlow]
      decide
    apply hnb
    rw [hpat, hp]
    exact List.mem_append_right _ (List.mem_cons_self _ _)

theorem stripExact_bracket_refute {pat patH patB T r : List Char}
    (hpat : pat = patH ++ patB) (hneB : patB ≠ [])
    (hB : stripExact patB ('[' :: T) = some r)
    (hnb : '[' ∉ pat) : False := by
  cases patB with
  | nil => exact hneB rfl
  | cons p ps =>
    obtain ⟨cs, hcc⟩ := stripExact_head hB
    injection hcc with h1 h2
    apply hnb
    rw [hpat, ← h1]
    exact List.mem_append_right _ (List.mem_cons_self _ _)

/-- After the header literal, `\s*[^\s\n]+` always succeeds on text extended
past the literal with a non-whitespace character. -/
theorem auth_tail_succeeds (rK Z : List Char) (s0 : Char) (hws : isWsB s0 = false) :
    run1 (fun c => !isWsB c) (dropRun isWsB (rK ++ s0 :: Z)) ≠ none := by
  rw [dropRun_append]
  split
  · simp [dropRun, run1, hws]
  · next hne =>
    cases hd : dropRun isWsB rK with
    | nil => exact absurd hd hne
    | cons d ds =>
      have hdf : isWsB d = false := dropRun_head_false hd
      rw [List.cons_append]
      simp [run1, hdf]

theorem htrans_auth : ∀ K T s0 Z, isWsB s0 = false →
    authMatch (K ++ '[' :: T) ≠ none → authMatch (K ++ s0 :: Z) ≠ none := by
  intro K T s0 Z hws h
  cases hm : authMatch (K ++ '[' :: T) with
  | none => exact absurd hm h
  | some r =>
    unfold authMatch at hm
    split at hm
    · cases hm
    · next r1 heq =>
      rcases stripICase_append_cases heq with ⟨rK, hK, hr1⟩ | ⟨patH, patB, hpat, hneB, hB⟩
      · have hKZ : stripICase "authorization:".data (K ++ s0 :: Z) =
            some (rK ++ s0 :: Z) := stripICase_append_of _ hK
        have hred : authMatch (K ++ s0 :: Z) =
            run1 (fun c => !isWsB c) (dropRun isWsB (rK ++ s0 :: Z)) := by
          unfold authMatch
          rw [hKZ]
        rw [hred]
        exact auth_tail_succeeds rK Z s0 hws
      · exact (stripICase_bracket_refute hpat hneB hB (by decide)).elim

theorem htrans_cookie : ∀ K T s0 Z, isWsB s0 = false →
    cookieMatch (K ++ '[' :: T) ≠ none → cookieMatch (K ++ s0 :: Z) ≠ none := by
  intro K T s0 Z hws h
  cases hm : cookieMatch (K ++ '[' :: T) with
  | none => exact absurd hm h
  | some r =>
    unfold cookieMatch at hm
    split at hm
    · cases hm
    · next r1 heq =>
      rcases stripICase_append_cases heq with ⟨rK, hK, hr1⟩ | ⟨patH, patB, hpat, hneB, hB⟩
      · have hKZ : stripICase "cookie:".data (K ++ s0 :: Z) =
            some (rK ++ s0 :: Z) := stripICase_append_of _ hK
        have hred : cookieMatch (K ++ s0 :: Z) =
            run1 (fun c => !isWsB c) (dropRun isWsB (rK ++ s0 :: Z)) := by
          unfold cookieMatch
          rw [hKZ]
        rw [hred]
        exact auth_tail_succeeds rK Z s0 hws
      · exact (stripICase_bracket_refute hpat hneB hB (by decide)).elim

theorem htrans_bearer : ∀ K T s0 Z, isWsB s0 = false →
    bearerMatch (K ++ '[' :: T) ≠ none → bearerMatch (K ++ s0 :: Z) ≠ none := by
  intro K T s0 Z hws h
  cases hm : bearerMatch (K ++ '[' :: T) with
  | none => exact absurd hm h
  | some r =>
    unfold bearerMatch at hm
    split at hm
    · cases hm
    · next r1 h1 =>
      rcases stripICase_append_cases h1 with ⟨rK, hK, hr1⟩ | ⟨patH, patB, hpat, hneB, hB⟩
      · subst hr1
        split at hm
        · cases hm
        · next r2 h2 =>
          rcases run1_append_cases h2 with ⟨hKnil, h2B⟩ | ⟨a, as, hKa, hpa, hr2⟩
          · rw [show run1 isWsB ('[' :: T) = none from by simp [run1, ws_lbracket]] at h2B
            cases h2B
          · subst hr2
            split at hm
            · cases hm
            · next r3 h3 =>
              rw [dropRun_append] at h3
              split at h3
              · rw [show dropRun isWsB ('[' :: T) = '[' :: T from by
                  simp [dropRun, ws_lbracket]] at h3
                rw [show run1 isTokenChar ('[' :: T) = none from by
                  simp [run1, tok_lbracket]] at h3
                cases h3
              · next hdne =>
                cases hd : dropRun isWsB as with
                | nil => exact absurd hd hdne
                | cons d ds =>
                  rw [hd, List.cons_append] at h3
                  have htd : isTokenChar d = true := by
                    rcases run1_some h3 with ⟨c, cs, hcc, hpc, _⟩
                    injection hcc with e1 e2
                    rw [e1]
                    exact hpc
                  have hKZ : stripICase "bearer".data (K ++ s0 :: Z) =
                      some (a :: (as ++ s0 :: Z)) := by
                    have h5 := stripICase_append_of (s0 :: Z) hK
                    rw [hKa, List.cons_append] at h5
                    exact h5
                  have h2Z : run1 isWsB (a :: (as ++ s0 :: Z)) =
                      some (dropRun isWsB (as ++ s0 :: Z)) := by
                    simp [run1, hpa]
                  have h3Z : dropRun isWsB (as ++ s0 :: Z) = d :: (ds ++ s0 :: Z) := by
                    rw [dropRun_append, if_neg hdne, hd, List.cons_append]
                  have h4Z : run1 isTokenChar (d :: (ds ++ s0 :: Z)) =
                      some (dropRun isTokenChar (ds ++ s0 :: Z)) := by
                    simp [run1, htd]
                  simp only [bearerMatch, hKZ, h2Z, h3Z, h4Z]
                  simp
      · exact (stripICase_bracket_refute hpat hneB hB (by decide)).elim

theorem htrans_jwt : ∀ K T s0 Z, isWsB s0 = false →
    jwtMatch (K ++ '[' :: T) ≠ none → jwtMatch (K ++ s0 :: Z) ≠ none := by
  intro K T s0 Z hws h
  cases hm : jwtMatch (K ++ '[' :: T) with
  | none => exact absurd hm h
  | some r =>
    unfold jwtMatch at hm
    split at hm
    · cases hm
    · next r1 h1 =>
      rcases stripExact_append_cases h1 with ⟨rA, hK, hr1⟩ | ⟨patH, patB, hpat, hneB, hB⟩
      · subst hr1
        split at hm
        · cases hm
        · next r2 h2 =>
          rcases run1_append_cases h2 with ⟨hAnil, h2B⟩ | ⟨a, as, hKa, hpa, hr2⟩
          · rw [show run1 isTokenChar ('[' :: T) = none from by
              simp [run1, tok_lbracket]] at h2B
            cases h2B
          · subst hr2
            split at hm
            · cases hm
            · next r3 h3 =>
              rw [dropRun_append] at h3
              split at h3
              · rw [show dropRun isTokenChar ('[' :: T) = '[' :: T from by
                  simp [dropRun, tok_lbracket]] at h3
                rw [show charStrip '.' ('[' :: T) = none from by
                  simp [charStrip]] at h3
                cases h3
              · next hdne =>
                cases hd : dropRun isTokenChar as with
                | nil => exact absurd hd hdne
                | cons d ds =>
                  rw [hd, List.cons_append] at h3
                  have hcc := charStrip_some h3
                  injection hcc with e1 e2
                  subst e1
                  subst e2
                  split at hm
                  · cases hm
                  · next r4 h4 =>
                    rcases stripExact_append_cases h4 with
                      ⟨rB, hKB, hr4⟩ | ⟨pH, pB, hp2, hne2, hB2⟩
                    · subst hr4
                      split at hm
                      · cases hm
                      · next r5 h5 =>
                        rcases run1_append_cases h5 with
                          ⟨hBnil, h5B⟩ | ⟨b, bs, hKb, hpb, hr5⟩
                        · rw [show run1 isTokenChar ('[' :: T) = none from by
                            simp [run1, tok_lbracket]] at h5B
                          cases h5B
                        · subst hr5
                          split at hm
                          · cases hm
                          · next r6 h6 =>
                            rw [dropRun_append] at h6
                            split at h6
                            · rw [show dropRun isTokenChar ('[' :: T) = '[' :: T from by
                                simp [dropRun, tok_lbracket]] at h6
                              rw [show charStrip '.' ('[' :: T) = none from by
                                simp [charStrip]] at h6
                              cases h6
                            · next hene =>
                              cases he : dropRun isTokenChar bs with
                              | nil => exact absurd he hene
                              | cons e es =>
                                rw [he, List.cons_append] at h6
                                have hcc2 := charStrip_some h6
                                injection hcc2 with f1 f2
                                subst f1
                                subst f2
                                rcases run1_append_cases hm with
                                  ⟨hesnil, hmB⟩ | ⟨f, fs, hKf, hpf, hrr⟩
                                · rw [show run1 isTokenChar ('[' :: T) = none from by
                                    simp [run1, tok_lbracket]] at hmB
                                  cases hmB
                                · have hKZ : stripExact "eyJ".data (K ++ s0 :: Z) =
                                      some (a :: (as ++ s0 :: Z)) := by
                                    have h9 := stripExact_append_of (s0 :: Z) hK
                                    rw [hKa, List.cons_append] at h9
                                    exact h9
                                  have h2Z : run1 isTokenChar (a :: (as ++ s0 :: Z)) =
                                      some (dropRun isTokenChar (as ++ s0 :: Z)) := by
                                    simp [run1, hpa]
                                  have h3Z : dropRun isTokenChar (as ++ s0 :: Z) =
                                      '.' :: (ds ++ s0 :: Z) := by
                                    rw [dropRun_append, if_neg hdne, hd, List.cons_append]
                                  have h4Z : charStrip '.' ('.' :: (ds ++ s0 :: Z)) =
                                      some (ds ++ s0 :: Z) := by
                                    simp [charStrip]
                                  have h5Z : stripExact "eyJ".data (ds ++ s0 :: Z) =
                                      some (b :: (bs ++ s0 :: Z)) := by
                                    have h9 := stripExact_append_of (s0 :: Z) hKB
                                    rw [hKb, List.cons_append] at h9
                                    exact h9
                                  have h6Z : run1 isTokenChar (b :: (bs ++ s0 :: Z)) =
                                      some (dropRun isTokenChar (bs ++ s0 :: Z)) := by
                                    simp [run1, hpb]
                                  have h7Z : dropRun isTokenChar (bs ++ s0 :: Z) =
                                      '.' :: (es ++ s0 :: Z) := by
                                    rw [dropRun_append, if_neg hene, he, List.cons_append]
                                  have h8Z : charStrip '.' ('.' :: (es ++ s0 :: Z)) =
                                      some (es ++ s0 :: Z) := by
                                    simp [charStrip]
                                  have h9Z : run1 isTokenChar (es ++ s0 :: Z) =
                                      some (dropRun isTokenChar (fs ++ s0 :: Z)) := by
                                    rw [hKf, List.cons_append]
                                    simp [run1, hpf]
                                  simp only [jwtMatch, hKZ, h2Z, h3Z, h4Z, h5Z, h6Z,
                                    h7Z, h8Z, h9Z]
                                  simp
                    · exact (stripExact_bracket_refute hp2 hne2 hB2 (by decide)).elim
      · exact (stripExact_bracket_refute hpat hneB hB (by decide)).elim

theorem htrans_api : ∀ K T s0 Z, isWsB s0 = false →
    apiKeyMatch (K ++ '[' :: T) ≠ none → apiKeyMatch (K ++ s0 :: Z) ≠ none := by
  intro K T s0 Z hws h
  cases hm : apiKeyMatch (K ++ '[' :: T) with
  | none => exact absurd hm h
  | some r =>
    cases K with
    | nil =>
      rw [List.nil_append] at hm
      rw [apiKeyMatch_none1 T (by decide)] at hm
      cases hm
    | cons k1 K1 =>
      cases K1 with
      | nil =>
        simp only [List.cons_append, List.nil_append] at hm
        cases T with
        | nil => simp [apiKeyMatch] at hm
        | cons t ts => simp [apiKeyMatch] at hm
      | cons k2 K2 =>
        cases K2 with
        | nil =>
          simp only [List.cons_append, List.nil_append] at hm
          simp [apiKeyMatch] at hm
        | cons k3 K3 =>
          simp only [List.cons_append] at hm ⊢
          simp only [apiKeyMatch] at hm
          split at hm
          · next h1 =>
            split at hm
            · next h2 =>
              split at hm
              · next h3 =>
                split at hm
                · next h20 =>
                  have hstop : (runCount isAlnumB (K3 ++ '[' :: T)).1 =
                      (runCount isAlnumB K3).1 :=
                    runCount_fst_stop isAlnumB K3 T alnum_lbracket
                  have hge : 20 ≤ (runCount isAlnumB (K3 ++ s0 :: Z)).1 := by
                    have hle := runCount_fst_le_append isAlnumB K3 (s0 :: Z)
                    omega
                  simp only [apiKeyMatch]
                  rw [if_pos h1, if_pos h2, if_pos h3]
                  simp [hge]
                · cases hm
              · cases hm
            · cases hm
          · cases hm

/-- The shared structural facts of the five matchers: failure on the empty
text, a non-whitespace first character of every match, and strict
consumption of a suffix. -/
def GoodMatcher (m : List Char → Option (List Char)) : Prop :=
  m [] = none ∧
  (∀ s r, m s = some r → ∃ s0 s', s = s0 :: s' ∧ isWsB s0 = false) ∧
  (∀ s r, m s = some r → r.length < s.length ∧ r <:+ s)

/-- The placeholder-compatibility facts of a matcher: it never matches
starting inside the placeholder, and a match reaching the `'['` boundary
transports back over the replaced span. -/
def Transportable (m : List Char → Option (List Char)) : Prop :=
  (∀ psuf X, psuf <:+ redactedChars → psuf ≠ [] → m (psuf ++ X) = none) ∧
  (∀ K T s0 Z, isWsB s0 = false → m (K ++ '[' :: T) ≠ none → m (K ++ s0 :: Z) ≠ none)

theorem good_auth : GoodMatcher authMatch :=
  ⟨authMatch_nil, fun _ _ h => authMatch_head_ws h, fun _ _ h => authMatch_sub h⟩

theorem good_cookie : GoodMatcher cookieMatch :=
  ⟨cookieMatch_nil, fun _ _ h => cookieMatch_head_ws h, fun _ _ h => cookieMatch_sub h⟩

theorem good_bearer : GoodMatcher bearerMatch :=
  ⟨bearerMatch_nil, fun _ _ h => bearerMatch_head_ws h, fun _ _ h => bearerMatch_sub h⟩

theorem good_jwt : GoodMatcher jwtMatch :=
  ⟨jwtMatch_nil, fun _ _ h => jwtMatch_head_ws h, fun _ _ h => jwtMatch_sub h⟩

theorem good_api : GoodMatcher apiKeyMatch :=
  ⟨apiKeyMatch_nil, fun _ _ h => apiKeyMatch_head_ws h, fun _ _ h => apiKeyMatch_sub h⟩

theorem trans_auth : Transportable authMatch := ⟨hplace_auth, htrans_auth⟩

theorem trans_cookie : Transportable cookieMatch := ⟨hplace_cookie, htrans_cookie⟩

theorem trans_bearer : Transportable bearerMatch := ⟨hplace_bearer, htrans_bearer⟩

theorem trans_jwt : Transportable jwtMatch := ⟨hplace_jwt, htrans_jwt⟩

theorem trans_api : Transportable apiKeyMatch := ⟨hplace_api, htrans_api⟩

/-- A pass leaves no match of its own rule in its output. -/
theorem clean_self (m : List Char → Option (List Char)) (hg : GoodMatcher m)
    (ht : Transportable m) (l : List Char) : NoMatchOn m (countReplace m l).2 :=
  scan_preserve_noMatch m m hg.1 ht.1 ht.2 hg.2.1 hg.2.2 l.length l (Nat.le_refl _)
    (fun _ _ hmj => hmj)

/-- A later pass preserves the absence of matches of an earlier rule. -/
theorem clean_preserve (mi mj : List Char → Option (List Char))
    (hgj : GoodMatcher mj) (hti : Transportable mi) (l : List Char)
    (hno : NoMatchOn mi l) : NoMatchOn mi (countReplace mj l).2 :=
  scan_preserve_noMatch mi mj hgj.1 hti.1 hti.2 hgj.2.1 hgj.2.2 l.length l
    (Nat.le_refl _) (fun s hs _ => hno s hs)

/-- The text produced by the five passes of `redactString`, in rule order. -/
def allPasses (l : List Char) : List Char :=
  (countReplace apiKeyMatch
    (countReplace jwtMatch
      (countReplace bearerMatch
        (countReplace cookieMatch
          (countReplace authMatch l).2).2).2).2).2

theorem redactString_fst (input : String) (rpt : RedactionReport) :
    (redactString input rpt).1 = ⟨allPasses input.data⟩ := rfl

/-- The output of a full redaction pass is clean for all five rules. -/
theorem clean_all (l : List Char) :
    NoMatchOn authMatch (allPasses l) ∧ NoMatchOn cookieMatch (allPasses l) ∧
    NoMatchOn bearerMatch (allPasses l) ∧ NoMatchOn jwtMatch (allPasses l) ∧
    NoMatchOn apiKeyMatch (allPasses l) := by
  have a0 := clean_self authMatch good_auth trans_auth l
  have a1 := clean_preserve authMatch cookieMatch good_cookie trans_auth _ a0
  have a2 := clean_preserve authMatch bearerMatch good_bearer trans_auth _ a1
  have a3 := clean_preserve authMatch jwtMatch good_jwt trans_auth _ a2
  have a4 := clean_preserve authMatch apiKeyMatch good_api trans_auth _ a3
  have b0 := clean_self cookieMatch good_cookie trans_cookie
    ((countReplace authMatch l).2)
  have b1 := clean_preserve cookieMatch bearerMatch good_bearer trans_cookie _ b0
  have b2 := clean_preserve cookieMatch jwtMatch good_jwt trans_cookie _ b1
  have b3 := clean_preserve cookieMatch apiKeyMatch good_api trans_cookie _ b2
  have c0 := clean_self bearerMatch good_bearer trans_bearer
    ((countReplace cookieMatch (countReplace authMatch l).2).2)
  have c1 := clean_preserve bearerMatch jwtMatch good_jwt trans_bearer _ c0
  have c2 := clean_preserve bearerMatch apiKeyMatch good_api trans_bearer _ c1
  have d0 := clean_self jwtMatch good_jwt trans_jwt
    ((countReplace bearerMatch (countReplace cookieMatch
      (countReplace authMatch l).2).2).2)
  have d1 := clean_preserve jwtMatch apiKeyMatch good_api trans_jwt _ d0
  have e0 := clean_self apiKeyMatch good_api trans_api
    ((countReplace jwtMatch (countReplace bearerMatch (countReplace cookieMatch
      (countReplace authMatch l).2).2).2).2)
  exact ⟨a4, b3, c2, d1, e0⟩

/-- One loop iteration is the identity (and records nothing) when its rule
has no match anywhere in the current text. -/
theorem redactStep_id {l : List Char} {rpt : RedactionReport} {n : RuleName}
    (h : NoMatchOn (ruleMatcher n) l) : redactStep (l, rpt) n = (l, rpt) := by
  have hc : countReplace (ruleMatcher n) l = (0, l) :=
    scan_of_noMatch (ruleMatcher n) l.length l h
  simp only [redactStep, hc]
  simp [recordMatches]

/-- A text with no match of any rule passes through `redactString`
unchanged, with an untouched report. -/
theorem redactString_id_of_clean (s : String) (rpt : RedactionReport)
    (h1 : NoMatchOn (ruleMatcher .authorizationHeader) s.data)
    (h2 : NoMatchOn (ruleMatcher .cookieHeader) s.data)
    (h3 : NoMatchOn (ruleMatcher .bearerToken) s.data)
    (h4 : NoMatchOn (ruleMatcher .jwtToken) s.data)
    (h5 : NoMatchOn (ruleMatcher .apiKey) s.data) :
    redactString s rpt = (s, rpt) := by
  simp only [redactString, redactionRules, List.foldl]
  rw [redactStep_id h1, redactStep_id h2, redactStep_id h3, redactStep_id h4,
    redactStep_id h5]

/-- C6: redaction is idempotent.  For every input text (and any report
threaded through the first pass), running `redactString` again on the first
pass's output with a fresh report returns that output unchanged and records
zero redactions: the second pass's report is still the all-zero report. -/
theorem redactString_idem_c6 (input : String) (rpt : RedactionReport) :
    redactString (redactString input rpt).1 freshReport =
      ((redactString input rpt).1, freshReport) := by
  obtain ⟨c1, c2, c3, c4, c5⟩ := clean_all input.data
  rw [redactString_fst input rpt]
  exact redactString_id_of_clean _ _ c1 c2 c3 c4 c5

/-- C3 witness: instantiation with a parser that always fails and the relative
URL `"/a/b?x=1#y"`, checking that the query and fragment are stripped. -/
theorem sanitizeUrl_spec_c3_witness :
    (('?' ∉ (sanitizeUrl (fun _ => none) "/a/b?x=1#y").data ∧
      '#' ∉ (sanitizeUrl (fun _ => none) "/a/b?x=1#y").data) ∧
    (∀ o p, (fun (_ : String) => (none : Option (String × String))) "/a/b?x=1#y" = some (o, p) →
      sanitizeUrl (fun _ => none) "/a/b?x=1#y" = o ++ p) ∧
    ((fun (_ : String) => (none : Option (String × String))) "/a/b?x=1#y" = none →
      '?' ∉ "/a/b?x=1#y".data → '#' ∉ "/a/b?x=1#y".data →
      sanitizeUrl (fun _ => none) "/a/b?x=1#y" = "/a/b?x=1#y")) :=
  sanitizeUrl_spec_c3 (fun _ => none) "/a/b?x=1#y"
    (fun s o p h => by cases h)

end Debugpack
